import Mathlib

/-!
Verification development for the boxed-expression core of a symbolic
compute engine.  The definitions below are a shallow embedding of the
TypeScript sources: the `BoxedFunction` class (canonicalization,
simplify / evaluate / N pipelines, pattern matching, sign computation),
the arithmetic LaTeX serialization dictionary, and the top level
`LatexSyntax.parse` glue.  Machine numbers are modelled with exact
rationals; reference identity of the `_canonical` cache is modelled by
the canonical flag carried on each node.
-/

namespace CE

/-- Numeric literals.  The engine keeps exactly one representation per
literal: machine float, arbitrary-precision decimal (bignum), exact
rational, complex, or NaN.  Floats are modelled by exact rationals. -/
inductive NumLit where
  | machine (v : ℚ)
  | big (v : ℚ)
  | rat (n : Int) (d : Int)
  | cplx (re im : ℚ)
  | nan
deriving DecidableEq, Repr

/-- Hold policy of a function definition: which operand positions are
exempt from automatic evaluation (source: `holdMap` skip argument). -/
inductive HoldPol where
  | all
  | none
  | first
  | rest
  | last
  | most
deriving DecidableEq, Repr

/-- Boxed expressions.  `fn` is a function application with a string
head; `fnE` has an expression head (e.g. `InverseFunction` applied to
`Sin`).  `canFlag` models `_canonical === this` (the expression was
constructed canonical or caches itself); `defSet` models `_def !== null`
(a function definition object was stored at construction). -/
inductive BExpr where
  | num (v : NumLit)
  | sym (name : String)
  | str (s : String)
  | fn (head : String) (ops : List BExpr) (canFlag : Bool) (defSet : Bool)
  | fnE (head : BExpr) (ops : List BExpr) (canFlag : Bool)
deriving Repr

mutual

/-- Decidable structural (value) equality on expressions. -/
def decEqB : (a b : BExpr) → Decidable (a = b)
  | .num v, .num w =>
    if h : v = w then isTrue (by rw [h]) else
      isFalse (by intro he; injection he with e; exact h e)
  | .num _, .sym _ => isFalse (by intro h; exact BExpr.noConfusion h)
  | .num _, .str _ => isFalse (by intro h; exact BExpr.noConfusion h)
  | .num _, .fn _ _ _ _ => isFalse (by intro h; exact BExpr.noConfusion h)
  | .num _, .fnE _ _ _ => isFalse (by intro h; exact BExpr.noConfusion h)
  | .sym a, .sym b =>
    if h : a = b then isTrue (by rw [h]) else
      isFalse (by intro he; injection he with e; exact h e)
  | .sym _, .num _ => isFalse (by intro h; exact BExpr.noConfusion h)
  | .sym _, .str _ => isFalse (by intro h; exact BExpr.noConfusion h)
  | .sym _, .fn _ _ _ _ => isFalse (by intro h; exact BExpr.noConfusion h)
  | .sym _, .fnE _ _ _ => isFalse (by intro h; exact BExpr.noConfusion h)
  | .str a, .str b =>
    if h : a = b then isTrue (by rw [h]) else
      isFalse (by intro he; injection he with e; exact h e)
  | .str _, .num _ => isFalse (by intro h; exact BExpr.noConfusion h)
  | .str _, .sym _ => isFalse (by intro h; exact BExpr.noConfusion h)
  | .str _, .fn _ _ _ _ => isFalse (by intro h; exact BExpr.noConfusion h)
  | .str _, .fnE _ _ _ => isFalse (by intro h; exact BExpr.noConfusion h)
  | .fn h1 o1 c1 d1, .fn h2 o2 c2 d2 =>
    match decEqL o1 o2 with
    | isTrue ho =>
      if hh : h1 = h2 then
        if hc : c1 = c2 then
          if hd : d1 = d2 then isTrue (by rw [hh, ho, hc, hd])
          else isFalse (by intro he; injection he with e1 e2 e3 e4; exact hd e4)
        else isFalse (by intro he; injection he with e1 e2 e3 e4; exact hc e3)
      else isFalse (by intro he; injection he with e1 e2 e3 e4; exact hh e1)
    | isFalse ho =>
      isFalse (by intro he; injection he with e1 e2 e3 e4; exact ho e2)
  | .fn _ _ _ _, .num _ => isFalse (by intro h; exact BExpr.noConfusion h)
  | .fn _ _ _ _, .sym _ => isFalse (by intro h; exact BExpr.noConfusion h)
  | .fn _ _ _ _, .str _ => isFalse (by intro h; exact BExpr.noConfusion h)
  | .fn _ _ _ _, .fnE _ _ _ => isFalse (by intro h; exact BExpr.noConfusion h)
  | .fnE h1 o1 c1, .fnE h2 o2 c2 =>
    match decEqB h1 h2, decEqL o1 o2 with
    | isTrue hh, isTrue ho =>
      if hc : c1 = c2 then isTrue (by rw [hh, ho, hc])
      else isFalse (by intro he; injection he with e1 e2 e3; exact hc e3)
    | isFalse hh, _ =>
      isFalse (by intro he; injection he with e1 e2 e3; exact hh e1)
    | _, isFalse ho =>
      isFalse (by intro he; injection he with e1 e2 e3; exact ho e2)
  | .fnE _ _ _, .num _ => isFalse (by intro h; exact BExpr.noConfusion h)
  | .fnE _ _ _, .sym _ => isFalse (by intro h; exact BExpr.noConfusion h)
  | .fnE _ _ _, .str _ => isFalse (by intro h; exact BExpr.noConfusion h)
  | .fnE _ _ _, .fn _ _ _ _ => isFalse (by intro h; exact BExpr.noConfusion h)

/-- Decidable equality on operand lists. -/
def decEqL : (a b : List BExpr) → Decidable (a = b)
  | [], [] => isTrue rfl
  | [], _ :: _ => isFalse (by intro h; exact List.noConfusion h)
  | _ :: _, [] => isFalse (by intro h; exact List.noConfusion h)
  | a :: as, b :: bs =>
    match decEqB a b, decEqL as bs with
    | isTrue h1, isTrue h2 => isTrue (by rw [h1, h2])
    | isFalse h1, _ => isFalse (by intro he; injection he with e1 e2; exact h1 e1)
    | _, isFalse h2 => isFalse (by intro he; injection he with e1 e2; exact h2 e2)

end

instance : DecidableEq BExpr := decEqB

/-- A head is either a symbol name or an expression
(source: `head: string | BoxedExpression`). -/
abbrev HeadV := Sum String BExpr

/-- The operand list of a node (empty for leaves). -/
def childOps : BExpr → List BExpr
  | .fn _ ops _ _ => ops
  | .fnE _ ops _ => ops
  | _ => []

/-- The string head of a node, when it has one. -/
def headS : BExpr → Option String
  | .fn h _ _ _ => some h
  | _ => Option.none

/-- `isCanonical`: source `get isCanonical() { return this._canonical === this }`.
Number, symbol and string leaves are boxed by their own classes (not part
of the sources under study) and are modelled as always canonical. -/
def isCanonicalB : BExpr → Bool
  | .fn _ _ canFlag _ => canFlag
  | .fnE _ _ canFlag => canFlag
  | _ => true

/-- `op1`: first operand, or the `Nothing` symbol
(source: `this._ops[0] ?? this.engine.symbol('Nothing')`). -/
def op1B (e : BExpr) : BExpr :=
  match (childOps e).head? with
  | some x => x
  | Option.none => .sym "Nothing"

mutual

/-- `get isValid()` of `BoxedFunction`: an `Error` head is invalid; a
non-canonical expression (never bound) is otherwise valid; a canonical
expression must have a resolved function definition (`functionDefinition`
returns `undefined` when `_def` is `null`) and valid operands.  An
expression head is checked recursively, then the operands.  Leaves are
modelled as valid. -/
def isValidB : BExpr → Bool
  | .num _ => true
  | .sym _ => true
  | .str _ => true
  | .fnE h ops _ => isValidB h && isValidL ops
  | .fn h ops canFlag dS =>
    if h = "Error" then false
    else if canFlag = false then true
    else if dS = false then false
    else isValidL ops

/-- `ops.every((x) => x.isValid)` on a list of operands. -/
def isValidL : List BExpr → Bool
  | [] => true
  | x :: xs => isValidB x && isValidL xs

end

/-- Result of `sgn`: `-1 | 0 | 1` for a known sign, `undefined`
(`undefS`) for unknown-but-possibly-any, `null` (`nullS`) for
never-a-real-sign (complex, NaN). -/
inductive Sgn where
  | neg
  | zero
  | pos
  | undefS
  | nullS
deriving DecidableEq, Repr

/-- The numeric value of a sign, `none` for `undefined`/`null`
(the `x.sgn ?? NaN` coalescing of the source). -/
def sgnToNum : Sgn → Option Int
  | .neg => some (-1)
  | .zero => some 0
  | .pos => some 1
  | .undefS => Option.none
  | .nullS => Option.none

/-- A function definition (`BoxedFunctionDefinition`): algebraic flags,
hold policy, and the signature handlers used by the pipelines.  Handlers
are modelled as plain Lean functions; `sigEvaluate` may be either a
lambda expression template or a function handler, as in the source
(`typeof sig.evaluate !== 'function'`). -/
structure FnDef where
  name : String
  associative : Bool := false
  commutative : Bool := false
  idempotent : Bool := false
  involution : Bool := false
  inert : Bool := false
  scopedF : Bool := false
  holdPol : HoldPol := .none
  sigCanonical : Option (List BExpr → BExpr) := Option.none
  sigSimplify : Option (List BExpr → Option BExpr) := Option.none
  sigEvaluate : Option (Sum BExpr (List BExpr → Option BExpr)) := Option.none
  sigN : Option (List BExpr → Option BExpr) := Option.none

/-- The compute engine state visible to the embedded functions.  Fields
whose implementation lives outside the sources under study are modelled
abstractly:
* `validateSig` models `validateSignature` (its body depends on the
  domain lattice, which is an external collaborator); it returns `none`
  when the operands match the signature and a replacement list otherwise;
* `ordB` models the total `order` comparator of `order.ts` used by the
  commutative sort (modelled from the spec: a total order by complexity
  band, then structurally);
* `evalHeadSymbol` models `head.evaluate().symbol` for expression heads;
* `costFunction` is the complexity-weighted node count of the spec;
* `numericEvalSmallInt` models `(this.numericValue ?? this.N()).asSmallInteger`
  used by the sign fallback;
* `symbolSgn` models `BoxedSymbol.sgn` (assumption-driven, not in the
  sources under study);
* `complexAllowed` / `preferBignum` model the numeric-mode policy
  helpers of `utils.ts`. -/
structure Engine where
  context : Bool := true
  lookupFunction : String → Option FnDef := fun _ => Option.none
  validateSig : String → List BExpr → Option (List BExpr) := fun _ _ => Option.none
  evalHeadSymbol : BExpr → Option String := fun _ => Option.none
  ordB : BExpr → BExpr → Bool := fun _ _ => true
  costFunction : BExpr → ℚ := fun _ => 1
  iterationLimit : Nat := 1024
  complexAllowed : Bool := true
  preferBignum : Bool := false
  numericEvalSmallInt : BExpr → Option Int := fun _ => Option.none
  symbolSgn : String → Sgn := fun _ => .undefS

/-- `flattenOps(ops, head)`: modelled from the source comment
`f(a, f(b, c), d) -> f(a, b, c, d)` (the implementation lives in
`symbolic/flatten.ts`, outside the sources under study): each operand
whose head equals `head` is replaced in place by its operands. -/
def flattenOps (xs : List BExpr) (head : String) : List BExpr :=
  xs.flatMap fun x => if headS x = some head then childOps x else [x]

/-- `flattenSequence`: operands with head `Sequence` are spliced in
place (source lines of `boxed-function`). -/
def flattenSequence (xs : List BExpr) : List BExpr :=
  xs.flatMap fun x => if headS x = some "Sequence" then childOps x else [x]

mutual

/-- `get canonical()`: return the cached canonical form if present
(modelled by the canonical flag); otherwise build it with
`makeCanonicalFunction` when the expression is valid, and cache the
expression itself when it is invalid.  Leaves are modelled as their own
canonical form. -/
def canonicalGet (ce : Engine) : BExpr → BExpr
  | .fn h ops canFlag dS =>
    if canFlag then .fn h ops canFlag dS
    else if isValidB (.fn h ops canFlag dS) then
      makeCanonicalFunction ce (.inl h) ops
    else .fn h ops canFlag dS
  | .fnE h ops canFlag =>
    if canFlag then .fnE h ops canFlag
    else if isValidB (.fnE h ops canFlag) then
      makeCanonicalFunction ce (.inr h) ops
    else .fnE h ops canFlag
  | e => e

/-- `ops.map((x) => x.canonical)`. -/
def canonicalL (ce : Engine) : List BExpr → List BExpr
  | [] => []
  | x :: xs => canonicalGet ce x :: canonicalL ce xs

/-- `makeCanonicalFunction`: canonicalize the arguments and flatten any
`Sequence`; resolve an expression head by evaluating it to a symbol;
look up the function definition; flatten same-head operands when
associative; validate the signature (replacing mismatched operands);
stop early (but still construct a canonical node) if some operand became
invalid; delegate to a custom `canonical` handler when present;
otherwise apply involution (`f(f(x)) → x`), idempotence
(`f(f(x)) → f(x)`), and the commutative sort.  Scope push/pop for scoped
definitions has no observable effect on the returned tree and is not
modelled. -/
def makeCanonicalFunction (ce : Engine) (hd : HeadV) (ops : List BExpr) : BExpr :=
  let ops1 := flattenSequence (canonicalL ce ops)
  let hd1 : HeadV :=
    match hd with
    | .inr hE =>
      match ce.evalHeadSymbol hE with
      | some s => .inl s
      | Option.none => .inr hE
    | .inl h => .inl h
  match hd1 with
  | .inr hE => .fnE hE ops1 true
  | .inl h =>
    if ce.context = false then .fn h ops1 true false
    else
      match ce.lookupFunction h with
      | Option.none => .fn h ops1 true false
      | some df =>
        let ops2 := if df.associative then flattenOps ops1 h else ops1
        let ops3 :=
          match ce.validateSig h ops2 with
          | some newOps => newOps
          | Option.none => ops2
        if isValidL ops3 = false then .fn h ops3 true true
        else
          match df.sigCanonical with
          | some handler => handler ops3
          | Option.none =>
            match ops3 with
            | [x] =>
              if headS x = some h then
                if df.involution then op1B x
                else
                  let ops4 := if df.idempotent then childOps x else [x]
                  let ops5 :=
                    if ops4.length > 1 && df.commutative then
                      ops4.mergeSort ce.ordB
                    else ops4
                  .fn h ops5 true true
              else .fn h [x] true true
            | other =>
              let ops5 :=
                if other.length > 1 && df.commutative then
                  other.mergeSort ce.ordB
                else other
              .fn h ops5 true true

end

/-- `applicable(skip, count, index)`: whether the recursive operation is
applied at operand position `index` of a list whose last index is
`count`, per the hold policy. -/
def applicable (skip : HoldPol) (count : Nat) (index : Nat) : Bool :=
  match skip with
  | .all => false
  | .none => true
  | .first => index != 0
  | .rest => index == 0
  | .last => index != count
  | .most => index == count

/-- The per-position loop of `holdMap`: `Hold`-headed operands are
unwrapped without applying `f`; `ReleaseHold`-headed operands have `f`
applied to their first operand regardless of position; positions the
hold policy applies to get `f` (dropping the operand when `f` returns
`null`); other operands are kept as is. -/
def holdMapGo (skip : HoldPol) (count : Nat) (f : BExpr → Option BExpr) :
    Nat → List BExpr → List BExpr
  | _, [] => []
  | i, x :: rest =>
    (if headS x = some "Hold" then [op1B x]
     else
       let y : Option BExpr :=
         if headS x = some "ReleaseHold" then some (op1B x)
         else if applicable skip count i then some x
         else Option.none
       match y with
       | some y0 =>
         match f y0 with
         | some r => [r]
         | Option.none => []
       | Option.none => [x])
    ++ holdMapGo skip count f (i + 1) rest

/-- `holdMap(head, xs, skip, associative, f)`: apply `f` to the elements
of `xs` except those the hold policy exempts, accounting for `Hold` and
`ReleaseHold` wrappers; same-head operands are flattened before and
after when the head is associative; elements for which `f` returns
`null` are dropped. -/
def holdMap (head : String) (xs : List BExpr) (skip : HoldPol)
    (associative : Bool) (f : BExpr → Option BExpr) : List BExpr :=
  if xs.length = 0 then []
  else
    let xs1 := if associative then flattenOps xs head else xs
    let result := holdMapGo skip (xs1.length - 1) f 0 xs1
    if associative then flattenOps result head else result

/-- `cheapest(oldExpr, newExpr)`: keep `oldExpr` when there is no new
expression or when the new expression costs more than `1.7×` the old
one; otherwise prefer the (boxed) new expression.  Reference equality
`oldExpr === newExpr` is modelled by value equality; `ce.box` on an
already boxed expression is the identity. -/
def cheapest (cost : BExpr → ℚ) (oldExpr : BExpr) (newExpr : Option BExpr) : BExpr :=
  match newExpr with
  | Option.none => oldExpr
  | some ne =>
    if ne = oldExpr then oldExpr
    else if cost ne ≤ 17 / 10 * cost oldExpr then ne
    else oldExpr

/-- The rule-application loop of `simplify` (step 5): repeatedly call
the rewrite engine (`expr.replace(rules)`, abstracted as `rw` since the
rule engine lives in `rules.ts`) and arbitrate each rewrite with
`cheapest(newExpr, expr)`; stop when no rule applied, when the rewritten
form was adopted, or when the iteration budget is exhausted.  `fuel` is
the number of additional iterations allowed after the current one. -/
def simplifyLoopGo (rw : BExpr → Option BExpr) (cost : BExpr → ℚ) :
    Nat → BExpr → BExpr
  | fuel, expr =>
    match rw expr with
    | Option.none => expr
    | some newExpr =>
      let e2 := cheapest cost newExpr (some expr)
      if e2 = newExpr then e2
      else
        match fuel with
        | 0 => e2
        | f + 1 => simplifyLoopGo rw cost f e2

/-- The full rule loop with the engine iteration limit: the `do/while`
body runs once and then while `iterationCount < iterationLimit`. -/
def simplifyRules (ce : Engine) (rw : BExpr → Option BExpr) (expr : BExpr) : BExpr :=
  simplifyLoopGo rw ce.costFunction (ce.iterationLimit - 1) expr

/-- `engine.fn(head, ops)`: box a non-canonical function application. -/
def mkFnNC (h : HeadV) (ops : List BExpr) : BExpr :=
  match h with
  | .inl s => .fn s ops false false
  | .inr e => .fnE e ops false

/-- `get functionDefinition()`: only canonical expressions are bound;
`_def === null` (no definition stored) yields `undefined`.  The stored
definition object is recovered through the engine table. -/
def functionDefinitionOf (ce : Engine) : BExpr → Option FnDef
  | .fn h _ canFlag dS =>
    if canFlag && dS then ce.lookupFunction h else Option.none
  | _ => Option.none

mutual

/-- `subs`: substitute in a function application by rebuilding it with
`makeCanonicalFunction` over the substituted operands (source
`BoxedFunction.subs`).  Substitution at a symbol leaf (class
`BoxedSymbol`, outside the sources under study) is modelled from the
spec: replace the symbol when the substitution maps its name. -/
def subsB (ce : Engine) : BExpr → List (String × BExpr) → BExpr
  | .sym name, sub =>
    match sub.find? fun kv => kv.1 = name with
    | some kv => kv.2
    | Option.none => .sym name
  | .num v, _ => .num v
  | .str s, _ => .str s
  | .fn h ops _ _, sub => makeCanonicalFunction ce (.inl h) (subsL ce ops sub)
  | .fnE h ops _, sub => makeCanonicalFunction ce (.inr h) (subsL ce ops sub)

/-- Substitution mapped over an operand list. -/
def subsL (ce : Engine) : List BExpr → List (String × BExpr) → List BExpr
  | [], _ => []
  | x :: xs, sub => subsB ce x sub :: subsL ce xs sub

end

/-- `lambda(ce, fn, args)`: build the positional substitution
(`__` ↦ the argument tuple, `_#` ↦ the argument count, `_n` ↦ the n-th
argument, `_` ↦ the first argument) and apply it to the lambda
expression.  `engine.tuple` is modelled as a `Tuple` application. -/
def lambdaB (ce : Engine) (lam : BExpr) (args : List BExpr) : BExpr :=
  let posSubs := args.enum.map fun p => ("_" ++ toString (p.1 + 1), p.2)
  let firstSub : List (String × BExpr) :=
    match args.head? with
    | some a => [("_", a)]
    | Option.none => []
  subsB ce lam
    ([("__", BExpr.fn "Tuple" args false false),
      ("_#", BExpr.num (.machine (args.length : ℚ)))] ++ posSubs ++ firstSub)

/-- `simplify()` of `BoxedFunction`, in open-recursion form: `recur`
stands for the recursive `x.simplify(options)` calls and `rw` for one
pass of the rewrite engine over the rule set.  Invalid expressions are
returned unchanged; non-canonical ones are canonicalized first; the
applicable operands are simplified through `holdMap`; a lambda head is
applied; an inert definition returns its first operand; otherwise the
`simplify` handler (or the reconstructed canonical node) feeds the rule
loop.  Leaves simplify to themselves. -/
def simplifyStep (ce : Engine) (recur : BExpr → BExpr)
    (rw : BExpr → Option BExpr) (e : BExpr) : BExpr :=
  if isValidB e = false then e
  else if isCanonicalB e = false then recur (canonicalGet ce e)
  else
    match e with
    | .fn h ops _ _ =>
      let df := functionDefinitionOf ce e
      let tail :=
        match df with
        | some d => holdMap d.name ops d.holdPol d.associative fun x => some (recur x)
        | Option.none => holdMap "" ops .none false fun x => some (recur x)
      let expr1 : Option BExpr :=
        match df with
        | some d =>
          if d.inert then some ((tail.head?.map (canonicalGet ce)).getD e)
          else
            match d.sigSimplify with
            | some sh => sh tail
            | Option.none => Option.none
        | Option.none => Option.none
      let expr2 :=
        match expr1 with
        | some x => x
        | Option.none => canonicalGet ce (mkFnNC (.inl h) tail)
      simplifyRules ce rw expr2
    | .fnE hE ops _ =>
      let tail := holdMap "" ops .none false fun x => some (recur x)
      recur (lambdaB ce hE tail)
    | leaf => leaf

/-- `evaluate()` of `BoxedFunction`, in open-recursion form: invalid
expressions are returned unchanged; non-canonical ones are canonicalized
first; applicable operands are evaluated through `holdMap`; a lambda
head is applied; without a definition or without an `evaluate` handler
the canonical reconstruction is returned; an inert definition returns
its first operand; a lambda-expression handler is applied through
`lambda`; a function handler's `undefined` result falls back to the
canonical reconstruction. -/
def evaluateStep (ce : Engine) (recur : BExpr → BExpr) (e : BExpr) : BExpr :=
  if isValidB e = false then e
  else if isCanonicalB e = false then recur (canonicalGet ce e)
  else
    match e with
    | .fn h ops _ _ =>
      let df := functionDefinitionOf ce e
      let tail :=
        match df with
        | some d => holdMap d.name ops d.holdPol d.associative fun x => some (recur x)
        | Option.none => holdMap "" ops .none false fun x => some (recur x)
      match df with
      | Option.none => canonicalGet ce (mkFnNC (.inl h) tail)
      | some d =>
        if d.inert then tail.headD e
        else
          match d.sigEvaluate with
          | Option.none => canonicalGet ce (mkFnNC (.inl h) tail)
          | some (.inl lam) => recur (lambdaB ce lam tail)
          | some (.inr ev) =>
            match ev tail with
            | some r => r
            | Option.none => canonicalGet ce (mkFnNC (.inl h) tail)
    | .fnE hE ops _ =>
      let tail := holdMap "" ops .none false fun x => some (recur x)
      recur (lambdaB ce hE tail)
    | leaf => leaf

/-- `isLiteral`: number and string literals; function applications are
never literal (source `get isLiteral() { return false }`). -/
def isLiteralB : BExpr → Bool
  | .num _ => true
  | .str _ => true
  | _ => false

/-- `complexValue` of a literal. -/
def complexValue : BExpr → Option (ℚ × ℚ)
  | .num (.cplx re im) => some (re, im)
  | _ => Option.none

/-- `bignumValue` of a literal. -/
def bignumValue : BExpr → Option ℚ
  | .num (.big v) => some v
  | _ => Option.none

/-- The literal post-processing at the end of `N()`: when the numeric
mode forbids complex results and the computed literal is complex the
result is `NaN` (`engine._NAN`); when it forbids bignum and the literal
is a bignum it is converted to a machine float
(`engine.number(result.bignumValue.toNumber())`). -/
def nPostProcess (ce : Engine) (result : BExpr) : BExpr :=
  if isLiteralB result then
    if ce.complexAllowed = false ∧ (complexValue result).isSome then
      .num .nan
    else if ce.preferBignum = false ∧ (bignumValue result).isSome then
      .num (.machine ((bignumValue result).getD 0))
    else result
  else result

/-- `N()` of `BoxedFunction`, in open-recursion form: `recurN` stands
for the recursive `x.N(options)` calls and `recurEval` for
`engine.fn(head, tail).evaluate()`.  The `N` handler is called when
present; when it is absent or returns `undefined` the evaluate path is
the fallback; the result then goes through `nPostProcess`. -/
def NStep (ce : Engine) (recurN recurEval : BExpr → BExpr) (e : BExpr) : BExpr :=
  if isValidB e = false then e
  else if isCanonicalB e = false then recurN (canonicalGet ce e)
  else
    match e with
    | .fn h ops _ _ =>
      let df := functionDefinitionOf ce e
      let tail :=
        match df with
        | some d => holdMap d.name ops d.holdPol d.associative fun x => some (recurN x)
        | Option.none => holdMap "" ops .none false fun x => some (recurN x)
      match df with
      | Option.none => canonicalGet ce (mkFnNC (.inl h) tail)
      | some d =>
        if d.inert then tail.headD e
        else
          let result :=
            match d.sigN with
            | some nh =>
              match nh tail with
              | some r => r
              | Option.none => recurEval (mkFnNC (.inl h) tail)
            | Option.none => recurEval (mkFnNC (.inl h) tail)
          nPostProcess ce result
    | .fnE hE ops _ =>
      let tail := holdMap "" ops .none false fun x => some (recurN x)
      recurN (lambdaB ce hE tail)
    | leaf => leaf

/-- Sign of a numeric literal (`BoxedNumber.sgn`, outside the sources
under study; modelled from the spec: `null` for never-a-real-sign, such
as complex values and NaN). -/
def numLitSgn : NumLit → Sgn
  | .machine v => if v = 0 then .zero else if v < 0 then .neg else .pos
  | .big v => if v = 0 then .zero else if v < 0 then .neg else .pos
  | .rat n d =>
    if n = 0 then .zero else if (n < 0) = (d < 0) then .pos else .neg
  | .cplx _ _ => .nullS
  | .nan => .nullS

/-- `isImaginary` truthiness of an operand (domain compatibility with
`ImaginaryNumber`, modelled for literals). -/
def isImagT : BExpr → Bool
  | .num (.cplx re im) => re == 0 && im != 0
  | _ => false

/-- The numeric fallback of `sgn`:
`(this.numericValue ?? this.N()).asSmallInteger`, abstracted through the
engine; `null` gives `undefined`, otherwise the integer's sign. -/
def sgnFallback (ce : Engine) (e : BExpr) : Sgn :=
  match ce.numericEvalSmallInt e with
  | Option.none => .undefS
  | some v => if v = 0 then .zero else if v < 0 then .neg else .pos

mutual

/-- `get sgn()` of `BoxedFunction` (plus modelled leaf signs):
structural computation for `Negate`, `Multiply`, `Add`, `Divide`,
`Square`, `Abs` and `Sqrt` (one helper per head, below), numeric
fallback for every other head.  The initial redirection of a
non-canonical expression to its canonical form is not modelled (the
claims concern canonical expressions). -/
def sgnB (ce : Engine) : BExpr → Sgn
  | .num v => numLitSgn v
  | .sym s => ce.symbolSgn s
  | .str s => sgnFallback ce (.str s)
  | .fnE h ops c => sgnFallback ce (.fnE h ops c)
  | .fn h ops c dS =>
    if h = "Negate" then sgnNegateB ce ops
    else if h = "Multiply" then sgnMultiplyB ce ops
    else if h = "Add" then sgnAddB ce ops
    else if h = "Divide" then sgnDivideB ce ops
    else if h = "Square" then sgnSquareB ce ops
    else if h = "Abs" then sgnAbsB ce ops
    else if h = "Sqrt" then sgnSqrtB ce ops
    else sgnFallback ce (.fn h ops c dS)

/-- `Negate`: flip the first operand's sign
(`s === 0 ? 0 : s > 0 ? -1 : +1`, `undefined` and `null` pass
through). -/
def sgnNegateB (ce : Engine) : List BExpr → Sgn
  | [] => .undefS
  | x :: _ =>
    match sgnB ce x with
    | .undefS => .undefS
    | .nullS => .nullS
    | .zero => .zero
    | .pos => .neg
    | .neg => .pos

/-- `Multiply`: sign of the accumulated product, `null` when the
accumulation hit NaN. -/
def sgnMultiplyB (ce : Engine) (ops : List BExpr) : Sgn :=
  match sgnProdGo ce ops with
  | Option.none => .nullS
  | some t => if t > 0 then .pos else if t < 0 then .neg else .zero

/-- `Multiply` sign accumulation:
`ops.reduce((acc, x) => acc * (x.sgn ?? NaN), 1)`; `none` models NaN
(absorbing, so the fold direction does not matter). -/
def sgnProdGo (ce : Engine) : List BExpr → Option Int
  | [] => some 1
  | x :: xs =>
    match sgnToNum (sgnB ce x), sgnProdGo ce xs with
    | some s, some acc => some (s * acc)
    | _, _ => Option.none

/-- `Add`: all-zero gives 0, all-positive +1, all-negative −1, anything
else (or an unknown operand sign) `null`. -/
def sgnAddB (ce : Engine) (ops : List BExpr) : Sgn :=
  let counts := addCountsGo ce ops
  let count := ops.length
  if counts.1 = count then .zero
  else if counts.2.1 = count then .pos
  else if counts.2.2 = count then .neg
  else .nullS

/-- `Add` sign counting: count zero / positive / negative operand signs
until the first unknown sign (the `break`). -/
def addCountsGo (ce : Engine) : List BExpr → Nat × Nat × Nat
  | [] => (0, 0, 0)
  | x :: xs =>
    match sgnToNum (sgnB ce x) with
    | Option.none => (0, 0, 0)
    | some s =>
      let rest := addCountsGo ce xs
      ((if s = 0 then rest.1 + 1 else rest.1),
       (if s > 0 then rest.2.1 + 1 else rest.2.1),
       (if s < 0 then rest.2.2 + 1 else rest.2.2))

/-- `Divide`: `null` when either sign is unknown or an operand is
missing; 0 for a zero numerator; +1 when the signs agree, −1
otherwise. -/
def sgnDivideB (ce : Engine) : List BExpr → Sgn
  | a :: b :: _ =>
    match sgnToNum (sgnB ce a), sgnToNum (sgnB ce b) with
    | some n, some d =>
      if n = 0 then .zero
      else if (n > 0 ∧ d > 0) ∨ (n < 0 ∧ d < 0) then .pos
      else .neg
    | _, _ => .nullS
  | _ => .nullS

/-- `Square`: −1 for an imaginary operand, 0 for a zero operand,
+1 otherwise (also when the operand is missing). -/
def sgnSquareB (ce : Engine) : List BExpr → Sgn
  | [] => .pos
  | x :: _ =>
    if isImagT x then .neg
    else if sgnB ce x = .zero then .zero
    else .pos

/-- `Abs`: 0 for a zero operand, +1 otherwise. -/
def sgnAbsB (ce : Engine) : List BExpr → Sgn
  | [] => .pos
  | x :: _ => if sgnB ce x = .zero then .zero else .pos

/-- `Sqrt`: 0 for a zero operand, `null` for an imaginary operand,
+1 otherwise. -/
def sgnSqrtB (ce : Engine) : List BExpr → Sgn
  | [] => .pos
  | x :: _ =>
    if sgnB ce x = .zero then .zero
    else if isImagT x then .nullS
    else .pos

end

/-- Wildcard bindings produced by `match`. -/
abbrev Subst := List (String × BExpr)

/-- A wildcard is a symbol whose name starts with the reserved `_`
prefix (source: `name.startsWith('_')`, written here through the
character list so it evaluates). -/
def isWildcardName (s : String) : Bool := s.data.head? == some '_'


/-- `{...a, ...b}`: merge bindings, the right operand overriding. -/
def mergeSubst (a b : Subst) : Subst :=
  (a.filter fun kv => b.all fun kv2 => kv2.1 ≠ kv.1) ++ b

mutual

/-- `match(rhs)` with `this` as the pattern.  The function-application
case is the source `BoxedFunction.match`: a non-function target fails; a
string pattern head must equal the target head; an expression pattern
head requires an expression target head matched recursively; then the
pattern operands are matched one by one against the target operands at
the same positions, threading the accumulated bindings.  Leaf patterns
(`BoxedSymbol` / `BoxedNumber` / `BoxedString.match`, outside the
sources under study) are modelled from the spec: a symbol whose name
starts with `_` is a wildcard binding one subexpression; other leaves
require exact equality; a missing target never matches. -/
def matchB : BExpr → Option BExpr → Option Subst
  | .sym s, t? =>
    if isWildcardName s then
      match t? with
      | some t => some [(s, t)]
      | Option.none => Option.none
    else
      match t? with
      | some t => if t = .sym s then some [] else Option.none
      | Option.none => Option.none
  | .num v, t? =>
    match t? with
    | some t => if t = .num v then some [] else Option.none
    | Option.none => Option.none
  | .str s, t? =>
    match t? with
    | some t => if t = .str s then some [] else Option.none
    | Option.none => Option.none
  | .fn ph pops _ _, t? =>
    match t? with
    | some (.fn th tops _ _) =>
      if ph ≠ th then Option.none else matchOps pops tops []
    | _ => Option.none
  | .fnE ph pops _, t? =>
    match t? with
    | some (.fnE th tops _) =>
      match matchB ph (some th) with
      | Option.none => Option.none
      | some m => matchOps pops tops m
    | _ => Option.none

/-- The operand loop of `match`: `lhsTail[i].match(rhsTail[i])` for each
pattern index, merging each binding set into the accumulator
(`result = {...result, ...m}`); the first failure aborts with `null`. -/
def matchOps : List BExpr → List BExpr → Subst → Option Subst
  | [], _, acc => some acc
  | p :: ps, ts, acc =>
    match matchB p ts.head? with
    | Option.none => Option.none
    | some m => matchOps ps ts.tail (mergeSubst acc m)

end

mutual

/-- A pattern with no wildcards: no symbol whose name starts with `_`. -/
def wildcardFreeB : BExpr → Bool
  | .sym s => !(isWildcardName s)
  | .num _ => true
  | .str _ => true
  | .fn _ ops _ _ => wildcardFreeL ops
  | .fnE h ops _ => wildcardFreeB h && wildcardFreeL ops

/-- `wildcardFreeB` over a list. -/
def wildcardFreeL : List BExpr → Bool
  | [] => true
  | x :: xs => wildcardFreeB x && wildcardFreeL xs

end

/-! ### MathJSON and the LaTeX serializer (arithmetic dictionary) -/

/-- Unboxed MathJSON expressions as consumed by the LaTeX serializer:
numbers, symbols, strings and function applications.  Heads are
modelled as strings (the serializer entries under study use only string
heads); number objects and primitive numbers are conflated. -/
inductive MJson where
  | num (v : ℚ)
  | sym (s : String)
  | str (s : String)
  | app (h : String) (args : List MJson)
deriving Repr

/-- `head(expr)` of `math-json/utils` (modelled from the spec: the
utilities file is an external collaborator): the head symbol of a
function application. -/
def headM : MJson → Option String
  | .app h _ => some h
  | _ => Option.none

/-- `ops(expr)`: the operand list (empty for non-applications). -/
def opsM : MJson → List MJson
  | .app _ args => args
  | _ => []

/-- `nops(expr)`: the operand count. -/
def nopsM (e : MJson) : Nat := (opsM e).length

/-- `op(expr, n)`: the n-th operand, 1-indexed, `null` when absent. -/
def opM (e : MJson) (n : Nat) : Option MJson := (opsM e).get? (n - 1)

/-- `machineValue(expr)` (modelled from the spec): the machine value of
a numeric literal, `null` otherwise. -/
def machineValueM : MJson → Option ℚ
  | .num v => some v
  | _ => Option.none

/-- `rationalValue(expr)` (modelled from the spec and the source
comment: it only parses rationals — `Divide` / `Rational` applications
with machine numerator and denominator, and `Half`; a plain number is
not a rational pair). -/
def rationalValueM : MJson → Option (ℚ × ℚ)
  | .sym "Half" => some (1, 2)
  | .app "Divide" [a, b] =>
    match machineValueM a, machineValueM b with
    | some n, some d => some (n, d)
    | _, _ => Option.none
  | .app "Rational" [a, b] =>
    match machineValueM a, machineValueM b with
    | some n, some d => some (n, d)
    | _, _ => Option.none
  | _ => Option.none

/-- `isEmptySequence(expr)` (modelled): a `Sequence` with no operand. -/
def isEmptySequenceM : MJson → Bool
  | .app "Sequence" [] => true
  | _ => false

/-- `missingIfEmpty(expr)` (modelled from the spec): a missing or empty
argument becomes a `missing` error marker. -/
def missingIfEmptyM : Option MJson → MJson
  | Option.none => .app "Error" [.str "'missing'"]
  | some e => if isEmptySequenceM e then .app "Error" [.str "'missing'"] else e

/-- The contribution of one `Multiply` factor to the numerator and
denominator lists of `numeratorDenominator`: a `Power` with a `Negate`
or negative exponent goes to the denominator (with the exponent
negated); a `Rational` routes its numerator and its (≠ 1) denominator;
a factor with a rational value routes its parts; anything else goes to
the numerator. -/
def numDenContrib (arg : MJson) : List MJson × List MJson :=
  if headM arg = some "Power" then
    let o1 := opM arg 1
    match opM arg 2 with
    | some o2v =>
      if headM o2v = some "Negate" then
        match o1, opM o2v 1 with
        | some b1, some bexp => ([], [MJson.app "Power" [b1, bexp]])
        | _, _ => ([], [])
      else
        match machineValueM o2v with
        | some v =>
          if v = -1 then
            match o1 with
            | some b1 => ([], [b1])
            | Option.none => ([], [])
          else if v < 0 then
            match o1 with
            | some b1 => ([], [MJson.app "Power" [b1, MJson.num (-v)]])
            | Option.none => ([], [])
          else ([arg], [])
        | Option.none => ([arg], [])
    | Option.none => ([arg], [])
  else if headM arg = some "Rational" ∧ nopsM arg = 2 then
    let o1 := (opM arg 1).getD (MJson.num 0)
    let o2 := (opM arg 2).getD (MJson.num 0)
    ((if machineValueM o1 = some 1 then [] else [o1]),
     (if machineValueM o2 = some 1 then [] else [o2]))
  else
    match rationalValueM arg with
    | some nd =>
      ((if nd.1 = 1 then [] else [MJson.num nd.1]), [MJson.num nd.2])
    | Option.none => ([arg], [])

/-- `numeratorDenominator(expr)`: for a product, collect the factors
with negative exponents in the denominator and the rest in the
numerator; non-products give two empty lists. -/
def numeratorDenominator (expr : MJson) : List MJson × List MJson :=
  if headM expr = some "Multiply" then
    ((opsM expr).flatMap fun a => (numDenContrib a).1,
     (opsM expr).flatMap fun a => (numDenContrib a).2)
  else ([], [])

/-- Serialization options (`DEFAULT_SERIALIZE_LATEX_OPTIONS`). -/
structure SerOpts where
  multiply : String := "\\times"
  invisibleMultiply : String := ""
  invisiblePlus : String := ""

/-- Fraction styles of the style policy. -/
inductive FracStyle where
  | quotient
  | inlineSolidus
  | niceSolidus
  | reciprocal
  | factor
deriving DecidableEq, Repr

/-- Root styles of the style policy. -/
inductive RootStyle where
  | radical
  | quotient
  | solidus
deriving DecidableEq, Repr

/-- `getFractionStyle` (modelled from the spec: the pluggable style
functions live in `serializer-style.ts`; the default choice is the
`\frac` quotient style). -/
def getFractionStyle (_e : MJson) (_level : Int) : FracStyle := .quotient

/-- `getRootStyle` (modelled from the spec: default radical style). -/
def getRootStyle (_e : Option MJson) (_level : Int) : RootStyle := .radical

/-- `joinLatex` (modelled from the spec: the tokenizer is an external
collaborator).  Concatenate LaTeX fragments, inserting a space when the
previous fragment ends with a letter and the next one starts with a
letter, so tokens do not merge. -/
def joinLatex (xs : List String) : String :=
  xs.foldl
    (fun acc s =>
      if acc = "" then s
      else if s = "" then acc
      else if acc.back.isAlpha ∧ s.front.isAlpha then acc ++ " " ++ s
      else acc ++ s)
    ""

/-- Serialization of a numeric literal (modelled: number formatting is
outside the sources under study; integers print in decimal). -/
def serializeNumber (v : ℚ) : String :=
  if v.den = 1 then toString v.num
  else toString v.num ++ "/" ++ toString v.den

/-- Serialization of a symbol (modelled: the dictionary maps a few
constants to commands, other symbols print verbatim). -/
def serializeSymbol (s : String) : String :=
  if s = "Pi" then "\\pi"
  else if s = "ExponentialE" then "\\exponentialE"
  else s

mutual

/-- `Serializer.serialize` (the `Serializer` class is outside the
sources under study): dispatch on the head through the arithmetic
dictionary entries of the source (`Multiply`, `Divide`, `Rational`,
`Power`, `Sqrt`, `Root`, `Negate`), with a modelled generic
serialization for other heads.  `fuel` bounds the recursion depth. -/
def serializeME (opts : SerOpts) : Nat → Int → MJson → String
  | 0, _, _ => ""
  | fuel + 1, level, e =>
    match e with
    | .num v => serializeNumber v
    | .sym s => serializeSymbol s
    | .str s => s
    | .app "Multiply" _ => serializeMultiplyM opts fuel level (some e)
    | .app "Divide" _ => serializeFractionM opts fuel level (some e)
    | .app "Rational" args =>
      if args.length = 1 then
        "\\mathrm\x7bRational\x7d" ++ wrapArgumentsM opts fuel level e
      else serializeFractionM opts fuel level (some e)
    | .app "Power" _ => serializePowerM opts fuel level (some e)
    | .app "Sqrt" _ => serializePowerM opts fuel level (some e)
    | .app "Root" _ => serializePowerM opts fuel level (some e)
    | .app "Negate" args => "-" ++ wrapAtM opts fuel level args.head? 276
    | .app h _ => h ++ wrapArgumentsM opts fuel level e
termination_by f _ _ => (f, 0, 0)

/-- `serializer.wrapArguments(expr)` (modelled): parenthesized
comma-separated operands. -/
def wrapArgumentsM (opts : SerOpts) : Nat → Int → MJson → String
  | 0, _, _ => ""
  | fuel + 1, level, e =>
    "(" ++ String.intercalate ", " ((opsM e).map (serializeME opts fuel level)) ++ ")"
termination_by f _ _ => (f, 1, 0)

/-- `serializer.wrap(expr, prec)` (modelled: the precedence-driven
parenthesization of the `Serializer` class is outside the sources under
study; the wrapped expression is serialized as is, and a missing
expression gives the empty string). -/
def wrapAtM (opts : SerOpts) : Nat → Int → Option MJson → Nat → String
  | 0, _, _, _ => ""
  | fuel + 1, level, e?, _prec =>
    match e? with
    | some x => serializeME opts fuel level x
    | Option.none => ""
termination_by f _ _ _ => (f, 1, 0)

/-- `serializer.wrapShort(expr)` (modelled like `wrapAtM`). -/
def wrapShortM (opts : SerOpts) : Nat → Int → MJson → String
  | 0, _, _ => ""
  | fuel + 1, level, e => serializeME opts fuel level e
termination_by f _ _ => (f, 1, 0)

/-- `serializeRoot(serializer, style, base, degree)` from the source:
solidus and quotient styles render an exponent, the radical style
renders `\sqrt{...}` (with the degree in brackets when it is not 2). -/
def serializeRootM (opts : SerOpts) :
    Nat → Int → RootStyle → Option MJson → Option MJson → String
  | 0, _, _, _, _ => ""
  | fuel + 1, level, style, base?, degree? =>
    match base? with
    | Option.none => "\\sqrt\x7b\x7d"
    | some base =>
      let degree := degree?.getD (MJson.num 2)
      match style with
      | .solidus =>
        wrapShortM opts fuel level base ++ "^\x7b1\\/" ++
          serializeME opts fuel level degree ++ "\x7d"
      | .quotient =>
        wrapShortM opts fuel level base ++ "^\x7b\\frac\x7b1\x7d\x7b" ++
          serializeME opts fuel level degree ++ "\x7d\x7d"
      | .radical =>
        if machineValueM degree = some 2 then
          "\\sqrt\x7b" ++ serializeME opts fuel level base ++ "\x7d"
        else
          "\\sqrt[" ++ serializeME opts fuel level degree ++ "]\x7b" ++
            serializeME opts fuel level base ++ "\x7d"
termination_by f _ _ _ _ => (f, 1, 0)

/-- `serializeFraction` from the source: extract numerator and
denominator (marking missing ones), then render per the fraction
style. -/
def serializeFractionM (opts : SerOpts) : Nat → Int → Option MJson → String
  | 0, _, _ => ""
  | fuel + 1, level, expr? =>
    match expr? with
    | Option.none => ""
    | some expr =>
      let numer := missingIfEmptyM (opM expr 1)
      let denom := missingIfEmptyM (opM expr 2)
      match getFractionStyle expr level with
      | .inlineSolidus =>
        wrapShortM opts fuel level numer ++ "\\/" ++ wrapShortM opts fuel level denom
      | .niceSolidus =>
        "^\x7b" ++ wrapShortM opts fuel level numer ++ "\x7d\\!\\!/\\!_\x7b" ++
          wrapShortM opts fuel level denom ++ "\x7d"
      | .reciprocal =>
        wrapAtM opts fuel level (some numer) 0 ++ wrapAtM opts fuel level (some denom) 0 ++
          "^\x7b-1\x7d"
      | .factor =>
        "\\frac\x7b1\x7d\x7b" ++ serializeME opts fuel level denom ++ "\x7d" ++
          wrapAtM opts fuel level (some numer) 0
      | .quotient =>
        "\\frac\x7b" ++ serializeME opts fuel level numer ++ "\x7d\x7b" ++
          serializeME opts fuel level denom ++ "\x7d"
termination_by f _ _ => (f, 1, 0)

/-- `serializePower` from the source: `Sqrt` and `Root` render through
`serializeRoot`; a negative exponent renders through `Divide`; a
reciprocal-shaped exponent (`1/n` or `n^{-1}`) renders as a root; the
general case renders `base^{exponent}`. -/
def serializePowerM (opts : SerOpts) : Nat → Int → Option MJson → String
  | 0, _, _ => ""
  | fuel + 1, level, expr? =>
    let name := match expr? with
      | some e => headM e
      | Option.none => Option.none
    let arg1 := missingIfEmptyM (match expr? with
      | some e => opM e 1
      | Option.none => Option.none)
    let arg2 := missingIfEmptyM (match expr? with
      | some e => opM e 2
      | Option.none => Option.none)
    if name = some "Sqrt" then
      serializeRootM opts fuel level (getRootStyle expr? level) (some arg1)
        (some (MJson.num 2))
    else if name = some "Root" then
      serializeRootM opts fuel level (getRootStyle expr? level) (some arg1) (some arg2)
    else
      let val2 := (machineValueM arg2).getD 1
      if val2 = -1 then
        serializeME opts fuel level (MJson.app "Divide" [MJson.num 1, arg1])
      else if val2 < 0 then
        serializeME opts fuel level
          (MJson.app "Divide" [MJson.num 1, MJson.app "Power" [arg1, MJson.num (-val2)]])
      else if headM arg2 = some "Divide" ∨ headM arg2 = some "Rational" then
        if machineValueM ((opM arg2 1).getD (MJson.num 0)) = some 1 then
          serializeRootM opts fuel level (getRootStyle expr? level) (some arg1) (opM arg2 2)
        else
          wrapShortM opts fuel level arg1 ++ "^\x7b" ++
            serializeME opts fuel level arg2 ++ "\x7d"
      else if headM arg2 = some "Power" then
        if machineValueM ((opM arg2 2).getD (MJson.num 0)) = some (-1) then
          serializeRootM opts fuel level (getRootStyle expr? level) (some arg1) (opM arg2 1)
        else
          wrapShortM opts fuel level arg1 ++ "^\x7b" ++
            serializeME opts fuel level arg2 ++ "\x7d"
      else
        wrapShortM opts fuel level arg1 ++ "^\x7b" ++
          serializeME opts fuel level arg2 ++ "\x7d"
termination_by f _ _ => (f, 1, 0)

/-- The factor walk of `serializeMultiply` (source loop over the
operands): thread the accumulated string, the pending sign, and whether
the previous factor was a number. -/
def mulLoopGo (opts : SerOpts) (fuel : Nat) (level : Int) :
    List MJson → String → Bool → Bool → String × Bool
  | [], result, isNeg, _ => (result, isNeg)
  | arg :: rest, result, isNeg, prevNum =>
    match arg with
    | .num v =>
      let term := serializeME opts fuel level (.num v)
      if term = "-1" ∧ result = "" then
        mulLoopGo opts fuel level rest "" (!isNeg) true
      else
        let negFlip := term.front = '-'
        let term := if negFlip then term.drop 1 else term
        let isNeg := if negFlip then !isNeg else isNeg
        let result :=
          if result = "" then term
          else joinLatex [result, opts.multiply, term]
        mulLoopGo opts fuel level rest result isNeg true
    | _ =>
      let rootCase : Option (ℚ × ℚ) :=
        if headM arg = some "Power" then
          match (opM arg 2).bind fun o2 => rationalValueM o2 with
          | some nd => if nd.1 = 1 then some nd else Option.none
          | Option.none => Option.none
        else Option.none
      match rootCase with
      | some nd =>
        let result := result ++
          serializeRootM opts fuel level (getRootStyle (some arg) level)
            (opM arg 1) (some (MJson.num nd.2))
        mulLoopGo opts fuel level rest result isNeg false
      | Option.none =>
        if headM arg = some "Power" ∧
            (machineValueM ((opM arg 1).getD (MJson.sym "x"))).isSome then
          let term := serializeME opts fuel level arg
          let result :=
            if result = "" then term
            else joinLatex [result, opts.multiply, term]
          mulLoopGo opts fuel level rest result isNeg true
        else
          let stripNeg := headM arg = some "Negate"
          let arg? : Option MJson := if stripNeg then opM arg 1 else some arg
          let isNeg := if stripNeg then !isNeg else isNeg
          let term := wrapAtM opts fuel level arg? 390
          let h := match arg? with
            | some a => headM a
            | Option.none => Option.none
          let result :=
            if result = "" then term
            else if prevNum ∧ (h = some "Divide" ∨ h = some "Rational") then
              joinLatex [result, opts.multiply, term]
            else if opts.invisibleMultiply = "" then joinLatex [result, term]
            else joinLatex [result, opts.invisibleMultiply, term]
          mulLoopGo opts fuel level rest result isNeg false
termination_by args _ _ _ => (fuel, 9, args.length)

/-- `serializeMultiply` from the source: the level is preventively
decremented (and restored on return, so inner calls see `level - 1`);
if the extracted denominator is non-trivial the whole product renders
through `Divide`; a denominator equal to the single factor `1` renders
the numerator product alone; otherwise the factor walk chooses explicit,
invisible, or root-shaped multiplication. -/
def serializeMultiplyM (opts : SerOpts) : Nat → Int → Option MJson → String
  | 0, _, _ => ""
  | fuel + 1, level, expr? =>
    match expr? with
    | Option.none => ""
    | some expr =>
      let level1 := level - 1
      let nd := numeratorDenominator expr
      let result0 : String :=
        if nd.2.length > 0 then
          match nd.2 with
          | [MJson.num d1] =>
            if d1 = 1 then
              match nd.1 with
              | [] => "1"
              | [n1] => serializeME opts fuel level1 n1
              | ns => serializeMultiplyM opts fuel level1 (some (MJson.app "Multiply" ns))
            else
              serializeME opts fuel level1
                (MJson.app "Divide"
                  [(match nd.1 with
                    | [n1] => n1
                    | ns => MJson.app "Multiply" ns),
                   (match nd.2 with
                    | [d1] => d1
                    | ds => MJson.app "Multiply" ds)])
          | _ =>
            serializeME opts fuel level1
              (MJson.app "Divide"
                [(match nd.1 with
                  | [n1] => n1
                  | ns => MJson.app "Multiply" ns),
                 (match nd.2 with
                  | [d1] => d1
                  | ds => MJson.app "Multiply" ds)])
        else ""
      if result0 ≠ "" then result0
      else
        let walk := mulLoopGo opts fuel level1 (opsM expr) "" false false
        if walk.2 then "-" ++ walk.1 else walk.1
termination_by f _ _ => (f, 1, 0)

end

/-! ### Top-level `LatexSyntax.parse` glue -/

/-- `parser.error(code, pos)` (modelled from the spec: `_Parser` lives
in `parse.ts`, an external collaborator here): a typed error marker
embedded in the tree. -/
def parserErrorM (code : MJson) : MJson := MJson.app "Error" [code]

/-- The outcome of `parser.peekDefinitions('infix')` at the remaining
input, and the behavior of `def.parse(parser, { minPrec: 0 }, lhs)` of
the retained entry, abstracted as a function of the left-hand side. -/
structure OpDefTop where
  name : Option String
  parseFn : MJson → Option MJson

/-- The parser state after `parser.matchExpression()` at the top of
`LatexSyntax.parse`: the parsed prefix (if any), the unconsumed tokens,
and the applicable top-level infix continuation (if any).  These model
the `_Parser` components that live outside the sources under study. -/
structure TopState where
  exprQ : Option MJson
  rest : List String
  opDefs : Option OpDefTop

/-- The tail of `LatexSyntax.parse` (after tokenization and
`matchExpression`): with no unconsumed token, return the parsed
expression or an empty `Sequence`; otherwise attempt one more infix
continuation (a named entry whose parse fails produces
`[name, lhs, missing]`); failing that, consume the rest, synthesize an
`unexpected-command` / `unexpected-token` error from the offending
token, and return it — wrapped with the parsed prefix in a `Sequence`
when a prefix exists, alone otherwise.  `preserveLatex` is off by
default and its metadata decoration is not modelled. -/
def parseTopLevel (st : TopState) : MJson :=
  match st.rest with
  | [] =>
    match st.exprQ with
    | some e => e
    | Option.none => MJson.app "Sequence" []
  | token :: _ =>
    let viaOp : Option MJson :=
      match st.opDefs with
      | some od =>
        let lhs := (st.exprQ).getD (parserErrorM (MJson.str "'missing'"))
        match od.parseFn lhs with
        | some result => some result
        | Option.none =>
          match od.name with
          | some nm =>
            some (MJson.app nm [lhs, parserErrorM (MJson.str "'missing'")])
          | Option.none => Option.none
      | Option.none => Option.none
    match viaOp with
    | some r => r
    | Option.none =>
      let tag :=
        if token.length > 1 ∧ token.startsWith "\\" then "unexpected-command"
        else "unexpected-token"
      let err := parserErrorM (MJson.app tag [MJson.str token])
      match st.exprQ with
      | Option.none => err
      | some e => MJson.app "Sequence" [e, err]

/-! ### Claim-side specification definitions -/

/-- The error tag chosen by the top-level parse glue for an offending
token: `unexpected-command` when the token begins with the escape
marker and is longer than a single character, `unexpected-token`
otherwise. -/
def errorTagOf (token : String) : String :=
  if token.length > 1 ∧ token.startsWith "\\" then "unexpected-command"
  else "unexpected-token"

/-- Specification of one `holdMap` position (following the claim's
wording): a `Hold`-headed operand is replaced by its first operand
without applying `f`; a `ReleaseHold`-headed operand has `f` applied to
its first operand even in a skipped position; elsewhere `f` applies
exactly at the positions the hold policy designates, and an operand for
which `f` returns `null` is dropped. -/
def holdElemSpec (skip : HoldPol) (count : Nat) (f : BExpr → Option BExpr)
    (i : Nat) (x : BExpr) : List BExpr :=
  if headS x = some "Hold" then [op1B x]
  else if headS x = some "ReleaseHold" then
    match f (op1B x) with
    | some r => [r]
    | Option.none => []
  else if applicable skip count i then
    match f x with
    | some r => [r]
    | Option.none => []
  else [x]

/-- Collect a list of optional signs into a list of signs, `none` as
soon as one entry is unknown. -/
def allSome : List (Option Int) → Option (List Int)
  | [] => some []
  | Option.none :: _ => Option.none
  | some v :: rest =>
    match allSome rest with
    | some ks => some (v :: ks)
    | Option.none => Option.none

/-- Specification of the `Multiply` sign (following the claim's
wording): the sign of the product of the operand signs when every
operand sign is known; `null` as soon as some operand sign is unknown
(`undefined`) or never-a-real-sign (`null`). -/
def prodSignSpec (sgns : List (Option Int)) : Sgn :=
  match allSome sgns with
  | some ks => if ks.prod > 0 then .pos else if ks.prod < 0 then .neg else .zero
  | Option.none => .nullS

/-- A product of one factor serializes as the factor itself, a product
of any other number of factors as a `Multiply` application (the
`numer.length === 1 ? numer[0] : [MULTIPLY, ...numer]` idiom). -/
def mulOne : List MJson → MJson
  | [x] => x
  | xs => .app "Multiply" xs

/-- A node whose operands the canonicalizer may splice in place
(`flattenOps` / `flattenSequence` act on string-headed applications;
`Error` nodes are never flattened because an `Error` head is invalid
and `Error` carries no associative definition). -/
def diggableB : BExpr → Bool
  | .fn h _ _ _ => h != "Error"
  | _ => false

/-- Stability invariant for canonicalization: the expression is its own
canonical form (`canonicalGet` fixes it), and — when the node is valid
or its operands may be spliced by the canonicalizer — its operands are
recursively stable.  `makeCanonicalFunction` both relies on and
re-establishes this invariant. -/
inductive RStable (ce : Engine) : BExpr → Prop where
  | mk (x : BExpr) (hcr : canonicalGet ce x = x)
      (hch : isValidB x = true ∨ diggableB x = true →
        ∀ z ∈ childOps x, RStable ce z) : RStable ce x

/-- Well-formed input for canonicalization: every subexpression that
carries the canonical flag (its `_canonical` cache points to itself)
has stable operands — the invariant every engine-constructed canonical
expression satisfies. -/
inductive WfIn (ce : Engine) : BExpr → Prop where
  | mk (x : BExpr) (hsub : ∀ z ∈ childOps x, WfIn ce z)
      (hflag : isCanonicalB x = true → ∀ z ∈ childOps x, RStable ce z) :
      WfIn ce x

/-- Engine well-formedness for canonicalization, as documented by the
source: custom `canonical` handlers return canonical (stable) results
(`console.assert(!fn.isValid || fn.isCanonical)`), signature validation
replaces operands only by stable expressions (originals, error markers,
`Nothing`), and `Error` has no associative definition. -/
def EngineOK (ce : Engine) : Prop :=
  (∀ h d f, ce.lookupFunction h = some d → d.sigCanonical = some f →
    ∀ args, RStable ce (f args)) ∧
  (∀ h ops out, ce.validateSig h ops = some out → ∀ x ∈ out, RStable ce x) ∧
  (∀ d, ce.lookupFunction "Error" = some d → d.associative = false)

/-- A concrete engine used to exercise the canonicalization rules:
four function definitions, each carrying exactly one algebraic flag
(`A` associative, `I` involution, `D` idempotent, `C` commutative),
with every other engine field at its default. -/
def ceC5 : Engine :=
  { lookupFunction := fun s =>
      if s = "A" then some { name := "A", associative := true }
      else if s = "I" then some { name := "I", involution := true }
      else if s = "D" then some { name := "D", idempotent := true }
      else if s = "C" then some { name := "C", commutative := true }
      else Option.none }

/-! ## Theorems -/

theorem cheapest_cases (cost : BExpr → ℚ) (oldE ne : BExpr) :
    cheapest cost oldE (some ne) = oldE ∨ cheapest cost oldE (some ne) = ne := by
  by_cases h1 : ne = oldE
  · left; simp [cheapest, h1]
  · by_cases h2 : cost ne ≤ 17 / 10 * cost oldE
    · right; simp [cheapest, h1, h2]
    · left; simp [cheapest, h1, h2]

theorem cheapest_cost_bound (cost : BExpr → ℚ) (hc : ∀ e, 0 ≤ cost e)
    (expr ne : BExpr) :
    cost (cheapest cost ne (some expr)) ≤ 17 / 10 * cost expr := by
  by_cases h1 : expr = ne
  · rw [show cheapest cost ne (some expr) = ne by simp [cheapest, h1]]
    rw [h1]
    linarith [hc ne]
  · by_cases h2 : cost expr ≤ 17 / 10 * cost ne
    · rw [show cheapest cost ne (some expr) = expr by simp [cheapest, h1, h2]]
      linarith [hc expr]
    · rw [show cheapest cost ne (some expr) = ne by simp [cheapest, h1, h2]]
      push_neg at h2
      linarith [hc ne, hc expr]

theorem simplifyLoopGo_cost_bound (rw : BExpr → Option BExpr) (cost : BExpr → ℚ)
    (hc : ∀ e, 0 ≤ cost e) :
    ∀ (fuel : Nat) (expr : BExpr),
      cost (simplifyLoopGo rw cost fuel expr) ≤ 17 / 10 * cost expr := by
  intro fuel
  induction fuel with
  | zero =>
    intro expr
    cases hrw : rw expr with
    | none =>
      simp only [simplifyLoopGo, hrw]
      linarith [hc expr]
    | some newExpr =>
      simp only [simplifyLoopGo, hrw, ite_self]
      exact cheapest_cost_bound cost hc expr newExpr
  | succ f ih =>
    intro expr
    cases hrw : rw expr with
    | none =>
      simp only [simplifyLoopGo, hrw]
      linarith [hc expr]
    | some newExpr =>
      rw [simplifyLoopGo, hrw]
      dsimp only
      by_cases he : cheapest cost newExpr (some expr) = newExpr
      · rw [if_pos he]
        exact cheapest_cost_bound cost hc expr newExpr
      · rw [if_neg he]
        rcases cheapest_cases cost newExpr expr with hA | hB
        · exact absurd hA he
        · rw [hB]
          exact ih expr

/-- Claim C1: inside `simplify()`, each rewrite step arbitrated by
`cheapest` keeps the cost within the `1.7×` bound of the pre-rewrite
expression — the accepted rewrite never exceeds `1.7×` the cost of the
expression it replaces, and consequently every iteration of the rule
loop (`simplifyLoopGo`, the loop of step 5 of `simplify`) returns an
expression whose complexity-weighted cost is at most `1.7×` the cost of
its input.  The cost function is only assumed nonnegative (it is a
complexity-weighted node count). -/
theorem claimC1_simplify_cost_bound (cost : BExpr → ℚ) (hc : ∀ e, 0 ≤ cost e) :
    (∀ expr newExpr : BExpr,
      cost (cheapest cost newExpr (some expr)) ≤ 17 / 10 * cost expr) ∧
    (∀ (rw : BExpr → Option BExpr) (fuel : Nat) (expr : BExpr),
      cost (simplifyLoopGo rw cost fuel expr) ≤ 17 / 10 * cost expr) :=
  ⟨fun expr newExpr => cheapest_cost_bound cost hc expr newExpr,
   fun rw fuel expr => simplifyLoopGo_cost_bound rw cost hc fuel expr⟩

theorem claimC1_witness :
    (∀ e : BExpr, (0 : ℚ) ≤ (fun _ => (1 : ℚ)) e) ∧
    (fun _ => (1 : ℚ)) (cheapest (fun _ => (1 : ℚ)) (BExpr.sym "b") (some (BExpr.sym "a"))) ≤
      17 / 10 * (fun _ => (1 : ℚ)) (BExpr.sym "a") ∧
    (fun _ => (1 : ℚ))
        (simplifyLoopGo (fun _ => Option.none) (fun _ => (1 : ℚ)) 3 (BExpr.sym "a")) ≤
      17 / 10 * (fun _ => (1 : ℚ)) (BExpr.sym "a") := by
  have h0 : ∀ e : BExpr, (0 : ℚ) ≤ (fun _ => (1 : ℚ)) e := fun _ => by norm_num
  exact ⟨h0,
    (claimC1_simplify_cost_bound (fun _ => (1 : ℚ)) h0).1 (BExpr.sym "a") (BExpr.sym "b"),
    (claimC1_simplify_cost_bound (fun _ => (1 : ℚ)) h0).2 (fun _ => Option.none) 3
      (BExpr.sym "a")⟩

/-- Claim C4: on an invalid expression (its tree contains an error
marker, so `isValid` is false), `simplify()`, `evaluate()` and `N()`
all return the expression unchanged — the guard `if (!this.isValid)
return this;` at the head of each pipeline. -/
theorem claimC4_invalid_noop (ce : Engine) (recS recE recN recEval : BExpr → BExpr)
    (rw : BExpr → Option BExpr) (e : BExpr) (h : isValidB e = false) :
    simplifyStep ce recS rw e = e ∧ evaluateStep ce recE e = e ∧
      NStep ce recN recEval e = e := by
  refine ⟨?_, ?_, ?_⟩ <;> simp [simplifyStep, evaluateStep, NStep, h]

theorem claimC4_witness :
    isValidB (BExpr.fn "Error" [BExpr.str "syntax-error"] false false) = false ∧
    simplifyStep {} id (fun _ => Option.none)
        (BExpr.fn "Error" [BExpr.str "syntax-error"] false false) =
      BExpr.fn "Error" [BExpr.str "syntax-error"] false false ∧
    evaluateStep {} id (BExpr.fn "Error" [BExpr.str "syntax-error"] false false) =
      BExpr.fn "Error" [BExpr.str "syntax-error"] false false ∧
    NStep {} id id (BExpr.fn "Error" [BExpr.str "syntax-error"] false false) =
      BExpr.fn "Error" [BExpr.str "syntax-error"] false false := by
  have h : isValidB (BExpr.fn "Error" [BExpr.str "syntax-error"] false false) = false := by
    simp [isValidB]
  have hmain := claimC4_invalid_noop {} id id id id (fun _ => Option.none)
    (BExpr.fn "Error" [BExpr.str "syntax-error"] false false) h
  exact ⟨h, hmain.1, hmain.2.1, hmain.2.2⟩

theorem holdMapGo_eq_spec (skip : HoldPol) (count : Nat) (f : BExpr → Option BExpr) :
    ∀ (xs : List BExpr) (i : Nat),
      holdMapGo skip count f i xs =
        ((xs.enumFrom i).map fun p => holdElemSpec skip count f p.1 p.2).flatten := by
  intro xs
  induction xs with
  | nil => intro i; simp [holdMapGo, List.enumFrom]
  | cons x rest ih =>
    intro i
    simp only [holdMapGo, List.enumFrom, List.map_cons, List.flatten_cons, ih]
    congr 1
    by_cases h1 : headS x = some "Hold"
    · simp [holdElemSpec, h1]
    · by_cases h2 : headS x = some "ReleaseHold"
      · simp [holdElemSpec, h1, h2]
      · by_cases h3 : applicable skip count i
        · simp [holdElemSpec, h1, h2, h3]
        · simp [holdElemSpec, h1, h2, h3]

/-- Claim C10 (implicit): `holdMap` — the operand mapper of
`simplify()`, `evaluate()` and `N()` — behaves, for every operand list
and hold policy, exactly as the per-position specification
`holdElemSpec`: a `Hold`-headed operand is replaced by its first
operand without the operation applied, a `ReleaseHold`-headed operand
has the operation applied to its first operand even in positions the
policy would skip, an operand whose application returns `null` is
dropped, and other operands are kept or mapped per `applicable`;
same-head flattening surrounds the walk when the head is
associative. -/
theorem claimC10_holdMap_spec :
    ∀ (head : String) (xs : List BExpr) (skip : HoldPol) (assoc : Bool)
      (f : BExpr → Option BExpr),
      holdMap head xs skip assoc f =
        (let ys := if assoc then flattenOps xs head else xs
         let r :=
           ((ys.enum).map fun p => holdElemSpec skip (ys.length - 1) f p.1 p.2).flatten
         if assoc then flattenOps r head else r) := by
  intro head xs skip assoc f
  by_cases hx : xs.length = 0
  · have hnil : xs = [] := List.length_eq_zero.mp hx
    subst hnil
    simp [holdMap, flattenOps]
  · simp only [holdMap, if_neg hx]
    have henum : ∀ ys : List BExpr, ys.enum = ys.enumFrom 0 := fun _ => rfl
    cases assoc with
    | false =>
      simp only [if_neg (Bool.false_ne_true), holdMapGo_eq_spec, henum]
    | true =>
      simp only [if_pos rfl, holdMapGo_eq_spec, henum]

/-- Claim C3 counterexample: when `matchExpression` produced no prefix
at all and tokens remain (a totally failed parse), the glue executes
`if (!expr) expr = error;` and returns the bare typed error — it is not
wrapped in a `Sequence`, contradicting the claim (and the spec sentence
"a totally failed parse still yields a `Sequence`-wrapped error
tree"). -/
theorem claimC3_counterexample :
    parseTopLevel { exprQ := Option.none, rest := ["x"], opDefs := Option.none } =
      MJson.app "Error" [MJson.app "unexpected-token" [MJson.str "x"]] ∧
    headM (parseTopLevel { exprQ := Option.none, rest := ["x"], opDefs := Option.none }) ≠
      some "Sequence" := by
  constructor
  · rfl
  · intro h
    simp [parseTopLevel, parserErrorM, headM] at h

/-- Claim C3 (amended): `parse` always returns a tree.  With tokens
remaining and no applicable top-level infix continuation (or an unnamed
entry whose parse fails), the typed error — tagged `unexpected-command`
when the offending token begins with the escape marker and is longer
than one character, `unexpected-token` otherwise — is wrapped together
with the already-parsed prefix in a `Sequence` when a prefix exists,
and returned alone (unwrapped) when nothing was parsed.  A named infix
entry whose parse fails yields `[name, lhs, missing]` instead, a
successful continuation is returned as is, and with no remaining token
the parsed expression (or an empty `Sequence`) is returned. -/
theorem claimC3_amended_parse :
    (∀ (e : MJson) (token : String) (rest : List String),
      parseTopLevel { exprQ := some e, rest := token :: rest, opDefs := Option.none } =
        MJson.app "Sequence"
          [e, parserErrorM (MJson.app (errorTagOf token) [MJson.str token])]) ∧
    (∀ (token : String) (rest : List String),
      parseTopLevel { exprQ := Option.none, rest := token :: rest, opDefs := Option.none } =
        parserErrorM (MJson.app (errorTagOf token) [MJson.str token])) ∧
    (∀ (e : MJson) (token : String) (rest : List String) (od : OpDefTop),
      od.parseFn e = Option.none → od.name = Option.none →
      parseTopLevel { exprQ := some e, rest := token :: rest, opDefs := some od } =
        MJson.app "Sequence"
          [e, parserErrorM (MJson.app (errorTagOf token) [MJson.str token])]) ∧
    (∀ (e : MJson) (token : String) (rest : List String) (od : OpDefTop) (nm : String),
      od.parseFn e = Option.none → od.name = some nm →
      parseTopLevel { exprQ := some e, rest := token :: rest, opDefs := some od } =
        MJson.app nm [e, parserErrorM (MJson.str "'missing'")]) ∧
    (∀ (e : MJson) (token : String) (rest : List String) (od : OpDefTop) (r : MJson),
      od.parseFn e = some r →
      parseTopLevel { exprQ := some e, rest := token :: rest, opDefs := some od } = r) ∧
    (∀ (e : MJson) (od? : Option OpDefTop),
      parseTopLevel { exprQ := some e, rest := [], opDefs := od? } = e) ∧
    (∀ od? : Option OpDefTop,
      parseTopLevel { exprQ := Option.none, rest := [], opDefs := od? } =
        MJson.app "Sequence" []) := by
  refine ⟨fun e token rest => rfl, fun token rest => rfl, ?_, ?_, ?_,
    fun e od? => rfl, fun od? => rfl⟩
  · intro e token rest od hpf hnm
    simp [parseTopLevel, hpf, hnm, errorTagOf]
  · intro e token rest od nm hpf hnm
    simp [parseTopLevel, hpf, hnm]
  · intro e token rest od r hpf
    simp [parseTopLevel, hpf]

theorem claimC3_witness :
    ((fun (_ : MJson) => (Option.none : Option MJson)) (MJson.num 2) = Option.none ∧
      parseTopLevel
          { exprQ := some (MJson.num 2), rest := ["\\foo"],
            opDefs :=
              some { name := Option.none,
                     parseFn := fun _ => (Option.none : Option MJson) } } =
        MJson.app "Sequence"
          [MJson.num 2,
           parserErrorM (MJson.app (errorTagOf "\\foo") [MJson.str "\\foo"])]) ∧
    parseTopLevel { exprQ := some (MJson.num 2), rest := ["y"], opDefs := Option.none } =
      MJson.app "Sequence"
        [MJson.num 2, parserErrorM (MJson.app (errorTagOf "y") [MJson.str "y"])] := by
  refine ⟨⟨rfl, ?_⟩, ?_⟩
  · exact claimC3_amended_parse.2.2.1 (MJson.num 2) "\\foo" []
      { name := Option.none, parseFn := fun _ => Option.none } rfl rfl
  · exact claimC3_amended_parse.1 (MJson.num 2) "y" []

theorem matchB_none : ∀ p : BExpr, matchB p Option.none = Option.none := by
  intro p
  cases p <;> simp [matchB]

theorem mergeSubst_nil (a : Subst) : mergeSubst a [] = a := by
  simp [mergeSubst]

theorem matchOps_some_length : ∀ (ps ts : List BExpr) (acc s : Subst),
    matchOps ps ts acc = some s → ps.length ≤ ts.length := by
  intro ps
  induction ps with
  | nil => intro ts acc s _; simp
  | cons p ps ih =>
    intro ts acc s h
    cases ts with
    | nil =>
      rw [matchOps] at h
      simp [matchB_none] at h
    | cons t ts' =>
      rw [matchOps] at h
      cases hmb : matchB p (t :: ts').head? with
      | none => rw [hmb] at h; simp at h
      | some m =>
        rw [hmb] at h
        have := ih ts' (mergeSubst acc m) s h
        simpa using Nat.succ_le_succ this

mutual

theorem matchB_wcfree : ∀ (p : BExpr) (t? : Option BExpr) (s : Subst),
    wildcardFreeB p = true → matchB p t? = some s → s = []
  | .sym name, t?, s => by
    intro hwf hm
    cases t? with
    | none => simp [matchB] at hm
    | some t =>
      have hst : isWildcardName name = false := by
        simpa [wildcardFreeB] using hwf
      by_cases he : t = BExpr.sym name
      · simp [matchB, hst, he] at hm
        exact hm
      · simp [matchB, hst, he] at hm
  | .num v, t?, s => by
    intro _ hm
    cases t? with
    | none => simp [matchB] at hm
    | some t =>
      by_cases he : t = BExpr.num v
      · simp [matchB, he] at hm
        exact hm
      · simp [matchB, he] at hm
  | .str v, t?, s => by
    intro _ hm
    cases t? with
    | none => simp [matchB] at hm
    | some t =>
      by_cases he : t = BExpr.str v
      · simp [matchB, he] at hm
        exact hm
      · simp [matchB, he] at hm
  | .fn ph pops c d, t?, s => by
    intro hwf hm
    cases t? with
    | none => simp [matchB] at hm
    | some t =>
      cases t with
      | fn th tops c2 d2 =>
        rw [matchB] at hm
        by_cases he : ph = th
        · rw [if_neg (by simp [he])] at hm
          exact matchOps_wcfree pops tops [] s (by simpa [wildcardFreeB] using hwf) hm
        · rw [if_pos he] at hm
          exact absurd hm (by simp)
      | num _ => simp [matchB] at hm
      | sym _ => simp [matchB] at hm
      | str _ => simp [matchB] at hm
      | fnE _ _ _ => simp [matchB] at hm
  | .fnE ph pops c, t?, s => by
    intro hwf hm
    cases t? with
    | none => simp [matchB] at hm
    | some t =>
      cases t with
      | fnE th tops c2 =>
        rw [matchB] at hm
        cases hmb : matchB ph (some th) with
        | none => rw [hmb] at hm; simp at hm
        | some m =>
          rw [hmb] at hm
          have hwf2 : wildcardFreeB ph = true ∧ wildcardFreeL pops = true := by
            simpa [wildcardFreeB, Bool.and_eq_true] using hwf
          have hm0 : m = [] := matchB_wcfree ph (some th) m hwf2.1 hmb
          have hs := matchOps_wcfree pops tops m s hwf2.2 hm
          rw [hs, hm0]
      | num _ => simp [matchB] at hm
      | sym _ => simp [matchB] at hm
      | str _ => simp [matchB] at hm
      | fn _ _ _ _ => simp [matchB] at hm

theorem matchOps_wcfree : ∀ (ps ts : List BExpr) (acc s : Subst),
    wildcardFreeL ps = true → matchOps ps ts acc = some s → s = acc
  | [], ts, acc, s => by
    intro _ hm
    rw [matchOps] at hm
    exact (Option.some_inj.mp hm).symm
  | p :: ps, ts, acc, s => by
    intro hwf hm
    rw [matchOps] at hm
    cases hmb : matchB p ts.head? with
    | none => rw [hmb] at hm; simp at hm
    | some m =>
      rw [hmb] at hm
      have hwf2 : wildcardFreeB p = true ∧ wildcardFreeL ps = true := by
        simpa [wildcardFreeL, Bool.and_eq_true] using hwf
      have hm0 : m = [] := matchB_wcfree p ts.head? m hwf2.1 hmb
      have := matchOps_wcfree ps ts.tail (mergeSubst acc m) s hwf2.2 hm
      rw [this, hm0, mergeSubst_nil]

end

/-- Claim C7 counterexample: matching the pattern `f(x)` against the
target `f(x, y)` succeeds (returning the empty binding object) even
though the arities differ — the operand loop of `match` checks only the
pattern's operand positions and has no arity test (unlike `isSame`),
so differing arity does not return `null` as claimed. -/
theorem claimC7_counterexample :
    matchB (BExpr.fn "f" [BExpr.sym "x"] false false)
        (some (BExpr.fn "f" [BExpr.sym "x", BExpr.sym "y"] false false)) = some [] ∧
    (childOps (BExpr.fn "f" [BExpr.sym "x"] false false)).length ≠
      (childOps (BExpr.fn "f" [BExpr.sym "x", BExpr.sym "y"] false false)).length := by
  constructor
  · have hst : isWildcardName "x" = false := by decide
    simp [matchB, matchOps, mergeSubst, hst]
  · simp [childOps]

/-- Claim C7 (amended): matching a function-application pattern
requires an equal head (a differing string head fails with `null`, and
a non-application target fails with `null`), and the pattern operands
are matched one by one against the target operands at the same
positions, threading bindings forward; a pattern with more operands
than the target never succeeds, but a target with extra operands can
still match (the extra operands are ignored), so differing arity alone
does not force failure; a successful match of a pattern with no named
wildcards returns the empty binding object. -/
theorem claimC7_amended_match :
    (∀ (ph : String) (pops : List BExpr) (c d : Bool) (th : String)
      (tops : List BExpr) (c2 d2 : Bool), ph ≠ th →
      matchB (.fn ph pops c d) (some (.fn th tops c2 d2)) = Option.none) ∧
    (∀ (ph : String) (pops : List BExpr) (c d : Bool) (name : String),
      matchB (.fn ph pops c d) (some (.sym name)) = Option.none) ∧
    (∀ (ph : String) (pops : List BExpr) (c d : Bool) (th : String)
      (tops : List BExpr) (c2 d2 : Bool) (s : Subst),
      matchB (.fn ph pops c d) (some (.fn th tops c2 d2)) = some s →
      ph = th ∧ pops.length ≤ tops.length) ∧
    (∀ (p t : BExpr) (s : Subst),
      wildcardFreeB p = true → matchB p (some t) = some s → s = []) := by
  refine ⟨?_, ?_, ?_, ?_⟩
  · intro ph pops c d th tops c2 d2 hne
    rw [matchB, if_pos hne]
  · intro ph pops c d name
    simp [matchB]
  · intro ph pops c d th tops c2 d2 s hm
    rw [matchB] at hm
    by_cases he : ph = th
    · rw [if_neg (by simp [he])] at hm
      exact ⟨he, matchOps_some_length pops tops [] s hm⟩
    · rw [if_pos he] at hm
      exact absurd hm (by simp)
  · intro p t s hwf hm
    exact matchB_wcfree p (some t) s hwf hm

theorem claimC7_witness :
    ("f" : String) ≠ "g" ∧
    matchB (BExpr.fn "f" [] false false) (some (BExpr.fn "g" [] false false)) =
      Option.none ∧
    matchB (BExpr.fn "f" [BExpr.sym "a"] false false)
        (some (BExpr.fn "f" [BExpr.sym "a", BExpr.sym "b"] false false)) = some [] ∧
    ("f" = "f" ∧ [BExpr.sym "a"].length ≤ [BExpr.sym "a", BExpr.sym "b"].length) ∧
    wildcardFreeB (BExpr.fn "f" [BExpr.sym "a"] false false) = true ∧
    ([] : Subst) = [] := by
  have hne : ("f" : String) ≠ "g" := by decide
  have hst : isWildcardName "a" = false := by decide
  have hm : matchB (BExpr.fn "f" [BExpr.sym "a"] false false)
      (some (BExpr.fn "f" [BExpr.sym "a", BExpr.sym "b"] false false)) = some [] := by
    simp [matchB, matchOps, mergeSubst, hst]
  have hwf : wildcardFreeB (BExpr.fn "f" [BExpr.sym "a"] false false) = true := by
    simp [wildcardFreeB, wildcardFreeL, hst]
  exact ⟨hne, claimC7_amended_match.1 "f" [] false false "g" [] false false hne, hm,
    claimC7_amended_match.2.2.1 "f" [BExpr.sym "a"] false false "f"
      [BExpr.sym "a", BExpr.sym "b"] false false [] hm,
    hwf,
    claimC7_amended_match.2.2.2 (BExpr.fn "f" [BExpr.sym "a"] false false)
      (BExpr.fn "f" [BExpr.sym "a", BExpr.sym "b"] false false) [] hwf hm⟩

theorem sgnB_Multiply (ce : Engine) (ops : List BExpr) (c dS : Bool) :
    sgnB ce (.fn "Multiply" ops c dS) =
      (match sgnProdGo ce ops with
       | Option.none => .nullS
       | some t => if t > 0 then .pos else if t < 0 then .neg else .zero) := by
  rw [sgnB]
  rw [if_neg (by decide : ¬ ("Multiply" : String) = "Negate"), if_pos rfl]
  rw [sgnMultiplyB]

theorem sgnProdGo_spec (ce : Engine) : ∀ ops : List BExpr,
    sgnProdGo ce ops =
      (allSome (ops.map fun x => sgnToNum (sgnB ce x))).map List.prod := by
  intro ops
  induction ops with
  | nil => simp [sgnProdGo, allSome]
  | cons x xs ih =>
    rw [sgnProdGo]
    simp only [List.map_cons]
    cases h : sgnToNum (sgnB ce x) with
    | none => simp [h, allSome]
    | some s =>
      cases hp : allSome (xs.map fun x => sgnToNum (sgnB ce x)) with
      | none => simp [h, hp, allSome, ih]
      | some ks => simp [h, hp, allSome, ih, List.prod_cons]

theorem allSome_eq_none : ∀ l : List (Option Int), Option.none ∈ l →
    allSome l = Option.none := by
  intro l
  induction l with
  | nil => intro h; simp at h
  | cons a as ih =>
    intro h
    rcases List.mem_cons.mp h with h1 | h2
    · rw [← h1]; rfl
    · cases a with
      | none => rfl
      | some v => simp [allSome, ih h2]

/-- Claim C8 (amended): the `Multiply` sign is computed structurally as
the sign of the product of the operand signs when every operand sign is
known; as soon as some operand sign is unknown (`undefined`) or
never-a-real-sign (`null`) the result is `null` — never `undefined` —
because the reduction coalesces both to NaN (`x.sgn ?? NaN`); heads
other than the structural set `Negate` / `Multiply` / `Add` / `Divide`
/ `Square` / `Abs` / `Sqrt` fall back to the sign of the numeric
value. -/
theorem claimC8_amended_sgn :
    (∀ (ce : Engine) (ops : List BExpr) (c dS : Bool),
      sgnB ce (.fn "Multiply" ops c dS) =
        prodSignSpec (ops.map fun x => sgnToNum (sgnB ce x))) ∧
    (∀ (ce : Engine) (ops : List BExpr) (c dS : Bool) (x : BExpr),
      x ∈ ops → sgnToNum (sgnB ce x) = Option.none →
      sgnB ce (.fn "Multiply" ops c dS) = .nullS) ∧
    (∀ (ce : Engine) (h : String) (ops : List BExpr) (c dS : Bool),
      h ≠ "Negate" → h ≠ "Multiply" → h ≠ "Add" → h ≠ "Divide" → h ≠ "Square" →
      h ≠ "Abs" → h ≠ "Sqrt" →
      sgnB ce (.fn h ops c dS) = sgnFallback ce (.fn h ops c dS)) := by
  have hmain : ∀ (ce : Engine) (ops : List BExpr) (c dS : Bool),
      sgnB ce (.fn "Multiply" ops c dS) =
        prodSignSpec (ops.map fun x => sgnToNum (sgnB ce x)) := by
    intro ce ops c dS
    rw [sgnB_Multiply, sgnProdGo_spec, prodSignSpec]
    cases hp : allSome (ops.map fun x => sgnToNum (sgnB ce x)) with
    | none => simp [hp]
    | some ks => simp [hp]
  refine ⟨hmain, ?_, ?_⟩
  · intro ce ops c dS x hx hnone
    rw [hmain, prodSignSpec]
    have hmem : Option.none ∈ ops.map fun x => sgnToNum (sgnB ce x) :=
      List.mem_map.mpr ⟨x, hx, hnone⟩
    rw [allSome_eq_none _ hmem]
  · intro ce h ops c dS h1 h2 h3 h4 h5 h6 h7
    rw [sgnB.eq_def]
    dsimp only
    rw [if_neg h1, if_neg h2, if_neg h3, if_neg h4, if_neg h5, if_neg h6, if_neg h7]

/-- Claim C8 counterexample: `Multiply` applied to a single symbol of
unknown (simply unresolved, `undefined`) sign yields `null`, not
`undefined` as the claim requires — `acc * (x.sgn ?? NaN)` turns an
`undefined` operand sign into NaN and the code then returns `null`. -/
theorem claimC8_counterexample :
    sgnB {} (BExpr.sym "x") = Sgn.undefS ∧
    sgnB {} (BExpr.fn "Multiply" [BExpr.sym "x"] true true) = Sgn.nullS ∧
    Sgn.nullS ≠ Sgn.undefS := by
  refine ⟨by rw [sgnB], ?_, by decide⟩
  have h1 : sgnB {} (BExpr.sym "x") = Sgn.undefS := by rw [sgnB]
  rw [sgnB_Multiply, sgnProdGo, h1]
  rw [sgnProdGo]
  simp [sgnToNum]

theorem claimC8_witness :
    sgnB {} (BExpr.fn "Multiply" [BExpr.num (.machine 2), BExpr.num (.machine (-3))] true true) =
      prodSignSpec
        ([BExpr.num (.machine 2), BExpr.num (.machine (-3))].map fun x =>
          sgnToNum (sgnB {} x)) ∧
    (BExpr.sym "y" ∈ [BExpr.sym "y"] ∧
      sgnToNum (sgnB {} (BExpr.sym "y")) = Option.none ∧
      sgnB {} (BExpr.fn "Multiply" [BExpr.sym "y"] true true) = Sgn.nullS) ∧
    sgnB {} (BExpr.fn "Power" [BExpr.sym "y"] true true) =
      sgnFallback {} (BExpr.fn "Power" [BExpr.sym "y"] true true) := by
  have hy : sgnToNum (sgnB {} (BExpr.sym "y")) = Option.none := by
    rw [sgnB]; simp [sgnToNum]
  refine ⟨claimC8_amended_sgn.1 {} _ true true, ⟨by simp, hy, ?_⟩, ?_⟩
  · exact claimC8_amended_sgn.2.1 {} [BExpr.sym "y"] true true (BExpr.sym "y")
      (by simp) hy
  · exact claimC8_amended_sgn.2.2 {} "Power" [BExpr.sym "y"] true true
      (by decide) (by decide) (by decide) (by decide) (by decide) (by decide) (by decide)

/-- Claim C6 (amended): for a canonical, valid function application
whose definition is bound and not inert, `N()` invokes the definition's
`N` handler on the hold-mapped operands; when the handler is absent or
returns `undefined`, it falls back to the evaluate path
(`engine.fn(head, tail).evaluate()`); the result is then
post-processed: a complex literal under a numeric mode that forbids
complex results becomes `NaN` (`engine._NAN`) — the complex part is not
merely discarded — and a bignum literal under a mode that forbids
bignum is converted to a machine float, a policy decision, not an
error. -/
theorem claimC6_amended_N :
    (∀ (ce : Engine) (recN recEval : BExpr → BExpr) (h : String)
      (ops : List BExpr) (d : FnDef) (nh : List BExpr → Option BExpr) (r : BExpr),
      isValidB (.fn h ops true true) = true →
      ce.lookupFunction h = some d → d.inert = false → d.sigN = some nh →
      nh (holdMap d.name ops d.holdPol d.associative fun x => some (recN x)) = some r →
      NStep ce recN recEval (.fn h ops true true) = nPostProcess ce r) ∧
    (∀ (ce : Engine) (recN recEval : BExpr → BExpr) (h : String)
      (ops : List BExpr) (d : FnDef),
      isValidB (.fn h ops true true) = true →
      ce.lookupFunction h = some d → d.inert = false → d.sigN = Option.none →
      NStep ce recN recEval (.fn h ops true true) =
        nPostProcess ce
          (recEval (mkFnNC (.inl h)
            (holdMap d.name ops d.holdPol d.associative fun x => some (recN x))))) ∧
    (∀ (ce : Engine) (recN recEval : BExpr → BExpr) (h : String)
      (ops : List BExpr) (d : FnDef) (nh : List BExpr → Option BExpr),
      isValidB (.fn h ops true true) = true →
      ce.lookupFunction h = some d → d.inert = false → d.sigN = some nh →
      nh (holdMap d.name ops d.holdPol d.associative fun x => some (recN x)) =
        Option.none →
      NStep ce recN recEval (.fn h ops true true) =
        nPostProcess ce
          (recEval (mkFnNC (.inl h)
            (holdMap d.name ops d.holdPol d.associative fun x => some (recN x))))) ∧
    (∀ (ce : Engine) (a b : ℚ), ce.complexAllowed = false →
      nPostProcess ce (.num (.cplx a b)) = .num .nan) ∧
    (∀ (ce : Engine) (v : ℚ), ce.preferBignum = false →
      nPostProcess ce (.num (.big v)) = .num (.machine v)) := by
  refine ⟨?_, ?_, ?_, ?_, ?_⟩
  · intro ce recN recEval h ops d nh r hvalid hlk hinert hsig hnh
    simp [NStep, hvalid, isCanonicalB, functionDefinitionOf, hlk, hinert, hsig, hnh]
  · intro ce recN recEval h ops d hvalid hlk hinert hsig
    simp [NStep, hvalid, isCanonicalB, functionDefinitionOf, hlk, hinert, hsig]
  · intro ce recN recEval h ops d nh hvalid hlk hinert hsig hnh
    simp [NStep, hvalid, isCanonicalB, functionDefinitionOf, hlk, hinert, hsig, hnh]
  · intro ce a b hmode
    simp [nPostProcess, isLiteralB, complexValue, hmode]
  · intro ce v hmode
    simp [nPostProcess, isLiteralB, complexValue, bignumValue, hmode]

/-- Claim C6 counterexample: with complex results forbidden
(`numericMode` machine-like), an `N` handler returning the complex
literal `3 + 2i` makes `N()` return `NaN` (`engine._NAN`) — the complex
part is not discarded (the result is not the real part `3`), so the
claim's "the complex part is discarded" is false on the code. -/
theorem claimC6_counterexample :
    NStep
        { complexAllowed := false,
          lookupFunction := fun hh =>
            if hh = "f" then
              some { name := "f",
                     sigN := some fun _ => some (.num (.cplx 3 2)) }
            else Option.none }
        id id (BExpr.fn "f" [] true true) = BExpr.num .nan ∧
    BExpr.num .nan ≠ BExpr.num (.machine 3) := by
  constructor
  · simp [NStep, isValidB, isValidL, isCanonicalB, functionDefinitionOf, holdMap,
      nPostProcess, isLiteralB, complexValue]
  · intro hcontra
    simp at hcontra

theorem claimC6_witness :
    (isValidB (BExpr.fn "g" [] true true) = true ∧
      NStep
          { lookupFunction := fun hh =>
              if hh = "g" then
                some { name := "g", sigN := some fun _ => some (.num (.machine 5)) }
              else Option.none }
          id id (BExpr.fn "g" [] true true) =
        nPostProcess
          { lookupFunction := fun hh =>
              if hh = "g" then
                some { name := "g", sigN := some fun _ => some (.num (.machine 5)) }
              else Option.none }
          (.num (.machine 5))) ∧
    nPostProcess { complexAllowed := false } (.num (.cplx 3 2)) = .num .nan ∧
    nPostProcess {} (.num (.big 7)) = .num (.machine 7) := by
  have hvalid : isValidB (BExpr.fn "g" [] true true) = true := by
    simp [isValidB, isValidL]
  refine ⟨⟨hvalid, ?_⟩, ?_, ?_⟩
  · exact claimC6_amended_N.1
      { lookupFunction := fun hh =>
          if hh = "g" then
            some { name := "g", sigN := some fun _ => some (.num (.machine 5)) }
          else Option.none }
      id id "g" []
      { name := "g", sigN := some fun _ => some (.num (.machine 5)) }
      (fun _ => some (.num (.machine 5))) (.num (.machine 5))
      hvalid (by simp) rfl rfl rfl
  · exact claimC6_amended_N.2.2.2.1 { complexAllowed := false } 3 2 rfl
  · exact claimC6_amended_N.2.2.2.2 {} 7 rfl

theorem mulOne_match (l : List MJson) :
    (match l with
     | [n1] => n1
     | ns => MJson.app "Multiply" ns) = mulOne l := by
  match l with
  | [] => rfl
  | [a] => rfl
  | a :: b :: t => rfl

/-- Claim C9 (amended): in `Multiply` serialization, every factor with
a negative exponent is routed to the denominator (the base alone for
exponent −1, the base raised to the negated exponent otherwise) and the
denominator of a `Rational` factor different from 1 is routed to the
denominator; when the collected denominator is non-empty and is not the
single factor `1`, the product is serialized through `Divide`
serialization instead of as a product (a denominator equal to the
single factor `1` is dropped and the numerator product alone is
serialized); in particular `["Multiply", 2, ["Rational", 1, 3]]`
serializes to `\frac{2}{3}`. -/
theorem claimC9_amended_multiply :
    serializeME {} 10 0
        (MJson.app "Multiply" [MJson.num 2, MJson.app "Rational" [MJson.num 1, MJson.num 3]]) =
      "\\frac\x7b2\x7d\x7b3\x7d" ∧
    (∀ (args : List MJson) (b : MJson) (v : ℚ),
      MJson.app "Power" [b, MJson.num v] ∈ args → v < 0 →
      (if v = -1 then b else MJson.app "Power" [b, MJson.num (-v)]) ∈
        (numeratorDenominator (MJson.app "Multiply" args)).2) ∧
    (∀ (args : List MJson) (p q : ℚ),
      MJson.app "Rational" [MJson.num p, MJson.num q] ∈ args → q ≠ 1 →
      MJson.num q ∈ (numeratorDenominator (MJson.app "Multiply" args)).2) ∧
    (∀ (opts : SerOpts) (fuel : Nat) (level : Int) (args : List MJson),
      (numeratorDenominator (MJson.app "Multiply" args)).2 ≠ [] →
      (numeratorDenominator (MJson.app "Multiply" args)).2 ≠ [MJson.num 1] →
      serializeME opts fuel (level - 1)
          (MJson.app "Divide"
            [mulOne (numeratorDenominator (MJson.app "Multiply" args)).1,
             mulOne (numeratorDenominator (MJson.app "Multiply" args)).2]) ≠ "" →
      serializeMultiplyM opts (fuel + 1) level (some (MJson.app "Multiply" args)) =
        serializeME opts fuel (level - 1)
          (MJson.app "Divide"
            [mulOne (numeratorDenominator (MJson.app "Multiply" args)).1,
             mulOne (numeratorDenominator (MJson.app "Multiply" args)).2])) := by
  refine ⟨?_, ?_, ?_, ?_⟩
  · simp [serializeME, serializeMultiplyM, serializeFractionM, numeratorDenominator,
      numDenContrib, headM, opsM, opM, machineValueM, rationalValueM, missingIfEmptyM,
      isEmptySequenceM, getFractionStyle, serializeNumber, nopsM]
    decide
  · intro args b v hmem hv
    have hcontrib : (if v = -1 then b else MJson.app "Power" [b, MJson.num (-v)]) ∈
        (numDenContrib (MJson.app "Power" [b, MJson.num v])).2 := by
      by_cases h1 : v = -1
      · simp [numDenContrib, headM, opM, opsM, machineValueM, h1]
      · simp [numDenContrib, headM, opM, opsM, machineValueM, h1,
          not_le.mpr hv, hv]
    simp only [numeratorDenominator, headM, reduceIte, opsM]
    exact List.mem_flatMap.mpr ⟨MJson.app "Power" [b, MJson.num v], hmem, hcontrib⟩
  · intro args p q hmem hq
    have hcontrib : MJson.num q ∈
        (numDenContrib (MJson.app "Rational" [MJson.num p, MJson.num q])).2 := by
      simp [numDenContrib, headM, opM, opsM, machineValueM, nopsM, hq]
    simp only [numeratorDenominator, headM, reduceIte, opsM]
    exact List.mem_flatMap.mpr ⟨MJson.app "Rational" [MJson.num p, MJson.num q], hmem, hcontrib⟩
  · intro opts fuel level args hne hne1 hser
    rw [serializeMultiplyM]
    dsimp only
    rcases hnd : (numeratorDenominator (MJson.app "Multiply" args)).2 with _ | ⟨x, rest⟩
    · exact absurd hnd hne
    · rw [hnd] at hser
      have hlen : (x :: rest).length > 0 := by simp
      rw [if_pos hlen]
      rcases rest with _ | ⟨y, t⟩
      · rcases x with v | s | s | ⟨hh, aa⟩
        case num =>
          have h1 : v ≠ 1 := fun hv => hne1 (by rw [hnd, hv])
          dsimp only
          rw [if_neg h1]
          rw [mulOne_match]
          rw [show mulOne [MJson.num v] = MJson.num v from rfl] at hser ⊢
          rw [if_pos hser]
        case sym =>
          dsimp only
          rw [mulOne_match]
          rw [show mulOne [MJson.sym s] = MJson.sym s from rfl] at hser ⊢
          rw [if_pos hser]
        case str =>
          dsimp only
          rw [mulOne_match]
          rw [show mulOne [MJson.str s] = MJson.str s from rfl] at hser ⊢
          rw [if_pos hser]
        case app =>
          dsimp only
          rw [mulOne_match]
          rw [show mulOne [MJson.app hh aa] = MJson.app hh aa from rfl] at hser ⊢
          rw [if_pos hser]
      · rw [show mulOne (x :: y :: t) = MJson.app "Multiply" (x :: y :: t) from rfl] at hser
        rcases x with v | s | s | ⟨hh, aa⟩ <;>
        · dsimp only
          rw [mulOne_match]
          rw [if_pos hser]
          rfl

/-- Claim C9 counterexample: in
`["Multiply", ["Power", 1, -1], 2]` the factor with negative exponent
routes its base to the denominator, so a denominator factor exists, yet
the product serializes to `"2"` (the numerator alone) and not through
`Divide` serialization — the code drops a denominator equal to the
single factor `1`. -/
theorem claimC9_counterexample :
    (numeratorDenominator
        (MJson.app "Multiply" [MJson.app "Power" [MJson.num 1, MJson.num (-1)], MJson.num 2])).2 =
      [MJson.num 1] ∧
    (numeratorDenominator
        (MJson.app "Multiply" [MJson.app "Power" [MJson.num 1, MJson.num (-1)], MJson.num 2])).2 ≠
      [] ∧
    serializeME {} 10 0
        (MJson.app "Multiply" [MJson.app "Power" [MJson.num 1, MJson.num (-1)], MJson.num 2]) =
      "2" ∧
    ("2" : String) ≠ "\\frac\x7b2\x7d\x7b1\x7d" := by
  refine ⟨?_, ?_, ?_, by decide⟩
  · simp [numeratorDenominator, numDenContrib, headM, opsM, opM, machineValueM,
      rationalValueM]
  · simp [numeratorDenominator, numDenContrib, headM, opsM, opM, machineValueM,
      rationalValueM]
  · simp [serializeME, serializeMultiplyM, serializeFractionM, numeratorDenominator,
      numDenContrib, headM, opsM, opM, machineValueM, rationalValueM, missingIfEmptyM,
      isEmptySequenceM, getFractionStyle, serializeNumber, nopsM]
    decide

theorem claimC9_witness :
    (MJson.app "Power" [MJson.sym "x", MJson.num (-2)] ∈
        [MJson.app "Power" [MJson.sym "x", MJson.num (-2)]] ∧
      MJson.app "Power" [MJson.sym "x", MJson.num 2] ∈
        (numeratorDenominator
          (MJson.app "Multiply" [MJson.app "Power" [MJson.sym "x", MJson.num (-2)]])).2) ∧
    (MJson.num 3 ∈
      (numeratorDenominator
        (MJson.app "Multiply"
          [MJson.num 2, MJson.app "Rational" [MJson.num 1, MJson.num 3]])).2) ∧
    serializeMultiplyM {} 10 0
        (some (MJson.app "Multiply"
          [MJson.num 2, MJson.app "Rational" [MJson.num 1, MJson.num 3]])) =
      serializeME {} 9 (0 - 1)
        (MJson.app "Divide"
          [mulOne (numeratorDenominator
            (MJson.app "Multiply"
              [MJson.num 2, MJson.app "Rational" [MJson.num 1, MJson.num 3]])).1,
           mulOne (numeratorDenominator
            (MJson.app "Multiply"
              [MJson.num 2, MJson.app "Rational" [MJson.num 1, MJson.num 3]])).2]) := by
  have hnd : (numeratorDenominator
      (MJson.app "Multiply"
        [MJson.num 2, MJson.app "Rational" [MJson.num 1, MJson.num 3]])) =
      ([MJson.num 2], [MJson.num 3]) := by
    simp [numeratorDenominator, numDenContrib, headM, opsM, opM, machineValueM,
      rationalValueM, nopsM]
  have hmem : MJson.app "Power" [MJson.sym "x", MJson.num 2] ∈
      (numeratorDenominator
        (MJson.app "Multiply" [MJson.app "Power" [MJson.sym "x", MJson.num (-2)]])).2 := by
    have := claimC9_amended_multiply.2.1
      [MJson.app "Power" [MJson.sym "x", MJson.num (-2)]] (MJson.sym "x") (-2)
      (by simp) (by norm_num)
    simpa using this
  refine ⟨⟨by simp, hmem⟩, ?_, ?_⟩
  · exact claimC9_amended_multiply.2.2.1
      [MJson.num 2, MJson.app "Rational" [MJson.num 1, MJson.num 3]] 1 3
      (by simp) (by norm_num)
  · refine claimC9_amended_multiply.2.2.2 {} 9 0
      [MJson.num 2, MJson.app "Rational" [MJson.num 1, MJson.num 3]]
      (by rw [hnd]; simp) (by rw [hnd]; simp) ?_
    rw [hnd]
    simp only [mulOne]
    simp [serializeME, serializeFractionM, missingIfEmptyM, isEmptySequenceM,
      getFractionStyle, serializeNumber, opM, opsM]
    decide

theorem canonicalL_eq_map (ce : Engine) (l : List BExpr) :
    canonicalL ce l = l.map (canonicalGet ce) := by
  induction l with
  | nil => simp [canonicalL]
  | cons x xs ih => simp [canonicalL, ih]

theorem canonicalL_eq_self (ce : Engine) : ∀ l : List BExpr,
    (∀ x ∈ l, canonicalGet ce x = x) → canonicalL ce l = l := by
  intro l
  induction l with
  | nil => intro _; simp [canonicalL]
  | cons x xs ih =>
    intro h
    have hx := h x (List.mem_cons_self x xs)
    have hxs := ih (fun z hz => h z (List.mem_cons_of_mem x hz))
    simp only [canonicalL, hx, hxs]

theorem flattenOps_cons (x : BExpr) (xs : List BExpr) (h : String) :
    flattenOps (x :: xs) h =
      (if headS x = some h then childOps x else [x]) ++ flattenOps xs h := by
  simp [flattenOps]

theorem flattenSequence_cons (x : BExpr) (xs : List BExpr) :
    flattenSequence (x :: xs) =
      (if headS x = some "Sequence" then childOps x else [x]) ++
        flattenSequence xs := by
  simp [flattenSequence]

theorem flattenSequence_eq_self : ∀ l : List BExpr,
    (∀ x ∈ l, ¬ headS x = some "Sequence") → flattenSequence l = l := by
  intro l
  induction l with
  | nil => intro _; simp [flattenSequence]
  | cons x xs ih =>
    intro h
    rw [flattenSequence_cons, if_neg (h x (List.mem_cons_self x xs)),
      ih (fun z hz => h z (List.mem_cons_of_mem x hz))]
    rfl

theorem flattenOps_eq_self (hd : String) : ∀ l : List BExpr,
    (∀ x ∈ l, ¬ headS x = some hd) → flattenOps l hd = l := by
  intro l
  induction l with
  | nil => intro _; simp [flattenOps]
  | cons x xs ih =>
    intro h
    rw [flattenOps_cons, if_neg (h x (List.mem_cons_self x xs)),
      ih (fun z hz => h z (List.mem_cons_of_mem x hz))]
    rfl

theorem flattenOps_flat (l : List BExpr) (h : String)
    (hl : ∀ x ∈ l, headS x = some h → ∀ z ∈ childOps x, ¬ headS z = some h) :
    ∀ z ∈ flattenOps l h, ¬ headS z = some h := by
  intro z hz
  simp only [flattenOps, List.mem_flatMap] at hz
  obtain ⟨x, hx, hzx⟩ := hz
  by_cases hh : headS x = some h
  · rw [if_pos hh] at hzx
    exact hl x hx hh z hzx
  · rw [if_neg hh] at hzx
    have hzx2 : z = x := by simpa using hzx
    rw [hzx2]
    exact hh

theorem makeCanonical_assoc_flatten (ce : Engine) (h : String) (df : FnDef)
    (ops : List BExpr)
    (hctx : ce.context = true)
    (hlk : ce.lookupFunction h = some df)
    (hassoc : df.associative = true)
    (hcomm : df.commutative = false)
    (hsc : df.sigCanonical = Option.none)
    (hcan : ∀ x ∈ ops, canonicalGet ce x = x)
    (hseq : ∀ x ∈ ops, ¬ headS x = some "Sequence")
    (hvs : ce.validateSig h (flattenOps ops h) = Option.none)
    (hvalid : isValidL (flattenOps ops h) = true)
    (hlen : ¬ (flattenOps ops h).length = 1) :
    makeCanonicalFunction ce (Sum.inl h) ops =
      BExpr.fn h (flattenOps ops h) true true := by
  have h1 : canonicalL ce ops = ops := canonicalL_eq_self ce ops hcan
  have h2 : flattenSequence ops = ops := flattenSequence_eq_self ops hseq
  rw [makeCanonicalFunction]
  simp [h1, h2, hctx, hlk, hassoc, hvs, hvalid, hsc]
  rcases hfl : flattenOps ops h with _ | ⟨a, _ | ⟨b, l⟩⟩
  · simp
  · rw [hfl] at hlen
    simp at hlen
  · simp [hcomm]

theorem makeCanonical_involution (ce : Engine) (h : String) (df : FnDef)
    (y : BExpr)
    (hctx : ce.context = true)
    (hlk : ce.lookupFunction h = some df)
    (hassoc : df.associative = false)
    (hinv : df.involution = true)
    (hsc : df.sigCanonical = Option.none)
    (hseqh : ¬ h = "Sequence")
    (herr : ¬ h = "Error")
    (hvs : ce.validateSig h [BExpr.fn h [y] true true] = Option.none)
    (hy : isValidB y = true) :
    makeCanonicalFunction ce (Sum.inl h) [BExpr.fn h [y] true true] = y := by
  have hc : canonicalGet ce (BExpr.fn h [y] true true) =
      BExpr.fn h [y] true true := by
    simp [canonicalGet]
  rw [makeCanonicalFunction]
  simp [canonicalL, hc, flattenSequence, headS, hseqh, hctx, hlk, hassoc, hvs,
    isValidL, isValidB, herr, hy, hsc, hinv, op1B, childOps]

theorem makeCanonical_idempotent (ce : Engine) (h : String) (df : FnDef)
    (y : BExpr)
    (hctx : ce.context = true)
    (hlk : ce.lookupFunction h = some df)
    (hassoc : df.associative = false)
    (hinv : df.involution = false)
    (hid : df.idempotent = true)
    (hsc : df.sigCanonical = Option.none)
    (hseqh : ¬ h = "Sequence")
    (herr : ¬ h = "Error")
    (hvs : ce.validateSig h [BExpr.fn h [y] true true] = Option.none)
    (hy : isValidB y = true) :
    makeCanonicalFunction ce (Sum.inl h) [BExpr.fn h [y] true true] =
      BExpr.fn h [y] true true := by
  have hc : canonicalGet ce (BExpr.fn h [y] true true) =
      BExpr.fn h [y] true true := by
    simp [canonicalGet]
  rw [makeCanonicalFunction]
  simp [canonicalL, hc, flattenSequence, headS, hseqh, hctx, hlk, hassoc, hvs,
    isValidL, isValidB, herr, hy, hsc, hinv, hid, childOps]

theorem makeCanonical_commutative_sort (ce : Engine) (h : String) (df : FnDef)
    (ops : List BExpr)
    (hctx : ce.context = true)
    (hlk : ce.lookupFunction h = some df)
    (hassoc : df.associative = false)
    (hcomm : df.commutative = true)
    (hsc : df.sigCanonical = Option.none)
    (hcan : ∀ x ∈ ops, canonicalGet ce x = x)
    (hseq : ∀ x ∈ ops, ¬ headS x = some "Sequence")
    (hvs : ce.validateSig h ops = Option.none)
    (hvalid : isValidL ops = true)
    (hlen : 1 < ops.length) :
    makeCanonicalFunction ce (Sum.inl h) ops =
      BExpr.fn h (ops.mergeSort ce.ordB) true true := by
  rcases ops with _ | ⟨a, _ | ⟨b, l⟩⟩
  · simp at hlen
  · simp at hlen
  · have h1 : canonicalL ce (a :: b :: l) = a :: b :: l :=
      canonicalL_eq_self ce (a :: b :: l) hcan
    have h2 : flattenSequence (a :: b :: l) = a :: b :: l :=
      flattenSequence_eq_self (a :: b :: l) hseq
    have hgt : 1 < (a :: b :: l).length := by
      simp only [List.length_cons]
      omega
    rw [makeCanonicalFunction]
    simp [h1, h2, hctx, hlk, hassoc, hvs, hvalid, hsc, hcomm, hgt]

/-- Claim C5: `makeCanonicalFunction` without a custom `canonical`
handler applies the generic structural rules of the source in order:
(i) when the definition is associative the operands are flattened into a
single operand list (same-head operands are spliced in place, so a
one-level-nested input yields an operand list free of same-head
operands); (ii) a unary application `f(f(x))` reduces to `x` when the
definition has the involution flag; (iii) and to `f(x)` when it has the
idempotent flag; (iv) when the definition is commutative and there is
more than one operand, the operands are sorted by the engine's order
(the result carries `List.mergeSort` by `ce.ordB`, which is a
permutation of the operands, pairwise ordered whenever the order is
transitive and total). -/
theorem claimC5_canonical_rules :
    (∀ (ce : Engine) (h : String) (df : FnDef) (ops : List BExpr),
      ce.context = true →
      ce.lookupFunction h = some df →
      df.associative = true →
      df.commutative = false →
      df.sigCanonical = Option.none →
      (∀ x ∈ ops, canonicalGet ce x = x) →
      (∀ x ∈ ops, ¬ headS x = some "Sequence") →
      ce.validateSig h (flattenOps ops h) = Option.none →
      isValidL (flattenOps ops h) = true →
      ¬ (flattenOps ops h).length = 1 →
      makeCanonicalFunction ce (Sum.inl h) ops =
          BExpr.fn h (flattenOps ops h) true true ∧
        ((∀ x ∈ ops, headS x = some h → ∀ z ∈ childOps x, ¬ headS z = some h) →
          ∀ z ∈ childOps (makeCanonicalFunction ce (Sum.inl h) ops),
            ¬ headS z = some h)) ∧
    (∀ (ce : Engine) (h : String) (df : FnDef) (y : BExpr),
      ce.context = true →
      ce.lookupFunction h = some df →
      df.associative = false →
      df.involution = true →
      df.sigCanonical = Option.none →
      ¬ h = "Sequence" →
      ¬ h = "Error" →
      ce.validateSig h [BExpr.fn h [y] true true] = Option.none →
      isValidB y = true →
      makeCanonicalFunction ce (Sum.inl h) [BExpr.fn h [y] true true] = y) ∧
    (∀ (ce : Engine) (h : String) (df : FnDef) (y : BExpr),
      ce.context = true →
      ce.lookupFunction h = some df →
      df.associative = false →
      df.involution = false →
      df.idempotent = true →
      df.sigCanonical = Option.none →
      ¬ h = "Sequence" →
      ¬ h = "Error" →
      ce.validateSig h [BExpr.fn h [y] true true] = Option.none →
      isValidB y = true →
      makeCanonicalFunction ce (Sum.inl h) [BExpr.fn h [y] true true] =
        BExpr.fn h [y] true true) ∧
    (∀ (ce : Engine) (h : String) (df : FnDef) (ops : List BExpr),
      ce.context = true →
      ce.lookupFunction h = some df →
      df.associative = false →
      df.commutative = true →
      df.sigCanonical = Option.none →
      (∀ x ∈ ops, canonicalGet ce x = x) →
      (∀ x ∈ ops, ¬ headS x = some "Sequence") →
      ce.validateSig h ops = Option.none →
      isValidL ops = true →
      1 < ops.length →
      makeCanonicalFunction ce (Sum.inl h) ops =
          BExpr.fn h (ops.mergeSort ce.ordB) true true ∧
        (ops.mergeSort ce.ordB).Perm ops ∧
        ((∀ a b c, ce.ordB a b = true → ce.ordB b c = true →
            ce.ordB a c = true) →
          (∀ a b, ce.ordB a b = true ∨ ce.ordB b a = true) →
          List.Pairwise (fun a b => ce.ordB a b = true)
            (ops.mergeSort ce.ordB))) := by
  refine ⟨?_, ?_, ?_, ?_⟩
  · intro ce h df ops hctx hlk hassoc hcomm hsc hcan hseq hvs hvalid hlen
    have hmain := makeCanonical_assoc_flatten ce h df ops hctx hlk hassoc hcomm
      hsc hcan hseq hvs hvalid hlen
    refine ⟨hmain, fun hnest z hz => ?_⟩
    rw [hmain] at hz
    exact flattenOps_flat ops h hnest z hz
  · intro ce h df y hctx hlk hassoc hinv hsc hseqh herr hvs hy
    exact makeCanonical_involution ce h df y hctx hlk hassoc hinv hsc hseqh
      herr hvs hy
  · intro ce h df y hctx hlk hassoc hinv hid hsc hseqh herr hvs hy
    exact makeCanonical_idempotent ce h df y hctx hlk hassoc hinv hid hsc
      hseqh herr hvs hy
  · intro ce h df ops hctx hlk hassoc hcomm hsc hcan hseq hvs hvalid hlen
    refine ⟨makeCanonical_commutative_sort ce h df ops hctx hlk hassoc hcomm
      hsc hcan hseq hvs hvalid hlen, List.mergeSort_perm ops ce.ordB,
      fun htrans htotal => ?_⟩
    exact List.sorted_mergeSort htrans
      (fun a b => by rcases htotal a b with hx | hx <;> simp [hx]) ops

theorem claimC5_witness :
    isValidL (flattenOps [BExpr.fn "A" [BExpr.sym "a", BExpr.sym "b"] true true,
      BExpr.sym "c"] "A") = true ∧
    makeCanonicalFunction ceC5 (Sum.inl "A")
        [BExpr.fn "A" [BExpr.sym "a", BExpr.sym "b"] true true, BExpr.sym "c"] =
      BExpr.fn "A"
        (flattenOps [BExpr.fn "A" [BExpr.sym "a", BExpr.sym "b"] true true,
          BExpr.sym "c"] "A") true true ∧
    makeCanonicalFunction ceC5 (Sum.inl "I")
        [BExpr.fn "I" [BExpr.sym "x"] true true] = BExpr.sym "x" ∧
    makeCanonicalFunction ceC5 (Sum.inl "D")
        [BExpr.fn "D" [BExpr.sym "x"] true true] =
      BExpr.fn "D" [BExpr.sym "x"] true true ∧
    makeCanonicalFunction ceC5 (Sum.inl "C")
        [BExpr.sym "u", BExpr.sym "v"] =
      BExpr.fn "C" ([BExpr.sym "u", BExpr.sym "v"].mergeSort ceC5.ordB)
        true true ∧
    ([BExpr.sym "u", BExpr.sym "v"].mergeSort ceC5.ordB).Perm
      [BExpr.sym "u", BExpr.sym "v"] ∧
    List.Pairwise (fun a b => ceC5.ordB a b = true)
      ([BExpr.sym "u", BExpr.sym "v"].mergeSort ceC5.ordB) := by
  have hA := (claimC5_canonical_rules.1 ceC5 "A" { name := "A", associative := true }
    [BExpr.fn "A" [BExpr.sym "a", BExpr.sym "b"] true true, BExpr.sym "c"]
    rfl (by simp [ceC5]) rfl rfl rfl
    (by intro x hx; fin_cases hx <;> simp [canonicalGet])
    (by decide) rfl (by decide) (by decide)).1
  have hI := claimC5_canonical_rules.2.1 ceC5 "I" { name := "I", involution := true }
    (BExpr.sym "x") rfl (by simp [ceC5]) rfl rfl rfl (by decide) (by decide)
    rfl (by decide)
  have hD := claimC5_canonical_rules.2.2.1 ceC5 "D"
    { name := "D", idempotent := true } (BExpr.sym "x") rfl (by simp [ceC5])
    rfl rfl rfl rfl (by decide) (by decide) rfl (by decide)
  have hC := claimC5_canonical_rules.2.2.2 ceC5 "C"
    { name := "C", commutative := true } [BExpr.sym "u", BExpr.sym "v"]
    rfl (by simp [ceC5]) rfl rfl rfl
    (by intro x hx; fin_cases hx <;> simp [canonicalGet])
    (by decide) rfl (by decide) (by decide)
  exact ⟨by decide, hA, hI, hD, hC.1, hC.2.1,
    hC.2.2 (fun a b c _ _ => rfl) (fun a b => Or.inl rfl)⟩

theorem RStable.fix {ce : Engine} {x : BExpr} (h : RStable ce x) :
    canonicalGet ce x = x := by
  cases h with
  | mk x hcr hch => exact hcr

theorem RStable.opsStable {ce : Engine} {x : BExpr} (h : RStable ce x)
    (hv : isValidB x = true ∨ diggableB x = true) :
    ∀ z ∈ childOps x, RStable ce z := by
  cases h with
  | mk x hcr hch => exact hch hv

theorem RStable_num (ce : Engine) (v : NumLit) : RStable ce (.num v) :=
  RStable.mk _ (by simp [canonicalGet]) (fun _ z hz => by simp [childOps] at hz)

theorem RStable_sym (ce : Engine) (s : String) : RStable ce (.sym s) :=
  RStable.mk _ (by simp [canonicalGet]) (fun _ z hz => by simp [childOps] at hz)

theorem RStable_str (ce : Engine) (s : String) : RStable ce (.str s) :=
  RStable.mk _ (by simp [canonicalGet]) (fun _ z hz => by simp [childOps] at hz)

theorem RStable_fn_flagged {ce : Engine} {h : String} {ops : List BExpr}
    {dS : Bool} (hops : ∀ z ∈ ops, RStable ce z) :
    RStable ce (.fn h ops true dS) :=
  RStable.mk _ (by simp [canonicalGet]) (fun _ => hops)

theorem RStable_fnE_flagged {ce : Engine} {hE : BExpr} {ops : List BExpr}
    (hops : ∀ z ∈ ops, RStable ce z) : RStable ce (.fnE hE ops true) :=
  RStable.mk _ (by simp [canonicalGet]) (fun _ => hops)

theorem diggableB_of_headS : ∀ (x : BExpr) (h : String), headS x = some h →
    ¬ h = "Error" → diggableB x = true := by
  intro x h hh hne
  cases x with
  | num v => simp [headS] at hh
  | sym s => simp [headS] at hh
  | str s => simp [headS] at hh
  | fnE a b c => simp [headS] at hh
  | fn h2 ops c d =>
    simp only [headS, Option.some.injEq] at hh
    subst hh
    simpa [diggableB, bne_iff_ne] using hne

theorem canonicalL_RStable {ce : Engine} {l : List BExpr}
    (hl : ∀ x ∈ l, RStable ce (canonicalGet ce x)) :
    ∀ z ∈ canonicalL ce l, RStable ce z := by
  intro z hz
  rw [canonicalL_eq_map] at hz
  simp only [List.mem_map] at hz
  obtain ⟨x, hx, hzx⟩ := hz
  rw [← hzx]
  exact hl x hx

theorem flattenSequence_RStable {ce : Engine} {l : List BExpr}
    (hl : ∀ x ∈ l, RStable ce x) :
    ∀ z ∈ flattenSequence l, RStable ce z := by
  intro z hz
  simp only [flattenSequence, List.mem_flatMap] at hz
  obtain ⟨x, hx, hzx⟩ := hz
  by_cases hh : headS x = some "Sequence"
  · rw [if_pos hh] at hzx
    exact (hl x hx).opsStable
      (Or.inr (diggableB_of_headS x "Sequence" hh (by decide))) z hzx
  · rw [if_neg hh] at hzx
    have hzx2 : z = x := by simpa using hzx
    rw [hzx2]
    exact hl x hx

theorem flattenOps_RStable {ce : Engine} {l : List BExpr} {h : String}
    (hne : ¬ h = "Error") (hl : ∀ x ∈ l, RStable ce x) :
    ∀ z ∈ flattenOps l h, RStable ce z := by
  intro z hz
  simp only [flattenOps, List.mem_flatMap] at hz
  obtain ⟨x, hx, hzx⟩ := hz
  by_cases hh : headS x = some h
  · rw [if_pos hh] at hzx
    exact (hl x hx).opsStable (Or.inr (diggableB_of_headS x h hh hne)) z hzx
  · rw [if_neg hh] at hzx
    have hzx2 : z = x := by simpa using hzx
    rw [hzx2]
    exact hl x hx

theorem isValidL_mem : ∀ l : List BExpr, isValidL l = true →
    ∀ x ∈ l, isValidB x = true := by
  intro l
  induction l with
  | nil => intro _ x hx; cases hx
  | cons a as ih =>
    intro hv x hx
    simp only [isValidL, Bool.and_eq_true] at hv
    rcases List.mem_cons.mp hx with hx2 | hx2
    · rw [hx2]; exact hv.1
    · exact ih hv.2 x hx2

theorem op1B_RStable {ce : Engine} {x : BExpr} (hx : RStable ce x)
    (hv : isValidB x = true) : RStable ce (op1B x) := by
  have hch := hx.opsStable (Or.inl hv)
  simp only [op1B]
  cases hh : (childOps x).head? with
  | none => exact RStable_sym ce "Nothing"
  | some c =>
    show RStable ce c
    apply hch
    cases hcs : childOps x with
    | nil => rw [hcs] at hh; exact Option.noConfusion hh
    | cons a as =>
      rw [hcs] at hh
      simp only [List.head?_cons, Option.some.injEq] at hh
      subst hh
      exact List.mem_cons_self a as

theorem makeCanonical_inl_RStable (ce : Engine) (hok : EngineOK ce)
    (h : String) (ops : List BExpr)
    (hops : ∀ x ∈ ops, RStable ce (canonicalGet ce x)) :
    RStable ce (makeCanonicalFunction ce (Sum.inl h) ops) := by
  have hops1 : ∀ z ∈ flattenSequence (canonicalL ce ops), RStable ce z :=
    flattenSequence_RStable (canonicalL_RStable hops)
  rw [makeCanonicalFunction]
  dsimp only
  by_cases hctx : ce.context = false
  · rw [if_pos hctx]
    exact RStable_fn_flagged hops1
  · rw [if_neg hctx]
    cases hlk : ce.lookupFunction h with
    | none =>
      dsimp only
      exact RStable_fn_flagged hops1
    | some df =>
      dsimp only
      have hops2 : ∀ z ∈ (if df.associative = true
          then flattenOps (flattenSequence (canonicalL ce ops)) h
          else flattenSequence (canonicalL ce ops)), RStable ce z := by
        by_cases ha : df.associative = true
        · rw [if_pos ha]
          have hne : ¬ h = "Error" := by
            intro he
            subst he
            have hfa := hok.2.2 df hlk
            rw [hfa] at ha
            exact Bool.noConfusion ha
          exact flattenOps_RStable hne hops1
        · rw [if_neg ha]
          exact hops1
      cases hvs : ce.validateSig h (if df.associative = true
          then flattenOps (flattenSequence (canonicalL ce ops)) h
          else flattenSequence (canonicalL ce ops)) with
      | some newOps =>
        dsimp only
        have hL : ∀ z ∈ newOps, RStable ce z := hok.2.1 h _ newOps hvs
        clear hvs hops2
        by_cases hval : isValidL newOps = false
        · rw [if_pos hval]
          exact RStable_fn_flagged hL
        · rw [if_neg hval]
          have hval2 : isValidL newOps = true := by
            cases hvb : isValidL newOps
            · exact absurd hvb hval
            · rfl
          cases hsc : df.sigCanonical with
          | some handler =>
            dsimp only
            exact hok.1 h df handler hlk hsc newOps
          | none =>
            dsimp only
            cases newOps with
            | nil =>
              dsimp only
              apply RStable_fn_flagged
              intro z hz
              by_cases hc : (([] : List BExpr).length > 1 &&
                  df.commutative) = true
              · rw [if_pos hc] at hz
                exact absurd (List.mem_mergeSort.mp hz) (List.not_mem_nil z)
              · rw [if_neg hc] at hz
                exact absurd hz (List.not_mem_nil z)
            | cons a rest =>
              cases rest with
              | nil =>
                dsimp only
                have haR : RStable ce a := hL a (List.mem_cons_self a [])
                have haV : isValidB a = true :=
                  isValidL_mem [a] hval2 a (List.mem_cons_self a [])
                by_cases hha : headS a = some h
                · rw [if_pos hha]
                  by_cases hinv : df.involution = true
                  · rw [if_pos hinv]
                    exact op1B_RStable haR haV
                  · rw [if_neg hinv]
                    have hops4 : ∀ z ∈ (if df.idempotent = true then
                        childOps a else [a]), RStable ce z := by
                      by_cases hid : df.idempotent = true
                      · rw [if_pos hid]
                        exact haR.opsStable (Or.inl haV)
                      · rw [if_neg hid]
                        intro z hz
                        rw [List.mem_singleton.mp hz]
                        exact haR
                    apply RStable_fn_flagged
                    intro z hz
                    by_cases hlen2 : ((if df.idempotent = true then
                        childOps a else [a]).length > 1 &&
                        df.commutative) = true
                    · rw [if_pos hlen2] at hz
                      exact hops4 z (List.mem_mergeSort.mp hz)
                    · rw [if_neg hlen2] at hz
                      exact hops4 z hz
                · rw [if_neg hha]
                  apply RStable_fn_flagged
                  intro z hz
                  rw [List.mem_singleton.mp hz]
                  exact haR
              | cons b rest2 =>
                dsimp only
                apply RStable_fn_flagged
                intro z hz
                by_cases hc : ((a :: b :: rest2).length > 1 &&
                    df.commutative) = true
                · rw [if_pos hc] at hz
                  exact hL z (List.mem_mergeSort.mp hz)
                · rw [if_neg hc] at hz
                  exact hL z hz
      | none =>
        dsimp only
        generalize hg2 : (if df.associative = true
            then flattenOps (flattenSequence (canonicalL ce ops)) h
            else flattenSequence (canonicalL ce ops)) = L
        rw [hg2] at hops2
        clear hvs hg2
        by_cases hval : isValidL L = false
        · rw [if_pos hval]
          exact RStable_fn_flagged hops2
        · rw [if_neg hval]
          have hval2 : isValidL L = true := by
            cases hvb : isValidL L
            · exact absurd hvb hval
            · rfl
          cases hsc : df.sigCanonical with
          | some handler =>
            dsimp only
            exact hok.1 h df handler hlk hsc L
          | none =>
            dsimp only
            cases L with
            | nil =>
              dsimp only
              apply RStable_fn_flagged
              intro z hz
              by_cases hc : (([] : List BExpr).length > 1 &&
                  df.commutative) = true
              · rw [if_pos hc] at hz
                exact absurd (List.mem_mergeSort.mp hz) (List.not_mem_nil z)
              · rw [if_neg hc] at hz
                exact absurd hz (List.not_mem_nil z)
            | cons a rest =>
              cases rest with
              | nil =>
                dsimp only
                have haR : RStable ce a := hops2 a (List.mem_cons_self a [])
                have haV : isValidB a = true :=
                  isValidL_mem [a] hval2 a (List.mem_cons_self a [])
                by_cases hha : headS a = some h
                · rw [if_pos hha]
                  by_cases hinv : df.involution = true
                  · rw [if_pos hinv]
                    exact op1B_RStable haR haV
                  · rw [if_neg hinv]
                    have hops4 : ∀ z ∈ (if df.idempotent = true then
                        childOps a else [a]), RStable ce z := by
                      by_cases hid : df.idempotent = true
                      · rw [if_pos hid]
                        exact haR.opsStable (Or.inl haV)
                      · rw [if_neg hid]
                        intro z hz
                        rw [List.mem_singleton.mp hz]
                        exact haR
                    apply RStable_fn_flagged
                    intro z hz
                    by_cases hlen2 : ((if df.idempotent = true then
                        childOps a else [a]).length > 1 &&
                        df.commutative) = true
                    · rw [if_pos hlen2] at hz
                      exact hops4 z (List.mem_mergeSort.mp hz)
                    · rw [if_neg hlen2] at hz
                      exact hops4 z hz
                · rw [if_neg hha]
                  apply RStable_fn_flagged
                  intro z hz
                  rw [List.mem_singleton.mp hz]
                  exact haR
              | cons b rest2 =>
                dsimp only
                apply RStable_fn_flagged
                intro z hz
                by_cases hc : ((a :: b :: rest2).length > 1 &&
                    df.commutative) = true
                · rw [if_pos hc] at hz
                  exact hops2 z (List.mem_mergeSort.mp hz)
                · rw [if_neg hc] at hz
                  exact hops2 z hz

theorem makeCanonical_resolveHead (ce : Engine) (hE : BExpr) (s : String)
    (ops : List BExpr) (hes : ce.evalHeadSymbol hE = some s) :
    makeCanonicalFunction ce (Sum.inr hE) ops =
      makeCanonicalFunction ce (Sum.inl s) ops := by
  conv_lhs => rw [makeCanonicalFunction]
  conv_rhs => rw [makeCanonicalFunction]
  dsimp only
  rw [hes]

theorem makeCanonical_RStable (ce : Engine) (hok : EngineOK ce)
    (hd : HeadV) (ops : List BExpr)
    (hops : ∀ x ∈ ops, RStable ce (canonicalGet ce x)) :
    RStable ce (makeCanonicalFunction ce hd ops) := by
  cases hd with
  | inl h => exact makeCanonical_inl_RStable ce hok h ops hops
  | inr hE =>
    cases hes : ce.evalHeadSymbol hE with
    | some s =>
      rw [makeCanonical_resolveHead ce hE s ops hes]
      exact makeCanonical_inl_RStable ce hok s ops hops
    | none =>
      have hops1 : ∀ z ∈ flattenSequence (canonicalL ce ops), RStable ce z :=
        flattenSequence_RStable (canonicalL_RStable hops)
      rw [makeCanonicalFunction]
      dsimp only
      rw [hes]
      exact RStable_fnE_flagged hops1

theorem canonicalGet_RStable (ce : Engine) (hok : EngineOK ce) :
    ∀ e : BExpr, WfIn ce e → RStable ce (canonicalGet ce e) := by
  intro e hw
  induction hw with
  | mk x hsub hflag ih =>
    cases x with
    | num v =>
      rw [show canonicalGet ce (.num v) = .num v by simp [canonicalGet]]
      exact RStable_num ce v
    | sym s =>
      rw [show canonicalGet ce (.sym s) = .sym s by simp [canonicalGet]]
      exact RStable_sym ce s
    | str s =>
      rw [show canonicalGet ce (.str s) = .str s by simp [canonicalGet]]
      exact RStable_str ce s
    | fn h ops canFlag dS =>
      cases canFlag with
      | true =>
        rw [show canonicalGet ce (.fn h ops true dS) = .fn h ops true dS by
          simp [canonicalGet]]
        exact RStable_fn_flagged (hflag rfl)
      | false =>
        by_cases hv : isValidB (.fn h ops false dS) = true
        · rw [show canonicalGet ce (.fn h ops false dS) =
              makeCanonicalFunction ce (Sum.inl h) ops by
            simp [canonicalGet, hv]]
          exact makeCanonical_inl_RStable ce hok h ops (fun z hz => ih z hz)
        · have hv2 : isValidB (.fn h ops false dS) = false := by
            cases hvb : isValidB (.fn h ops false dS)
            · rfl
            · exact absurd hvb hv
          have hcg : canonicalGet ce (.fn h ops false dS) =
              .fn h ops false dS := by
            simp [canonicalGet, hv2]
          rw [hcg]
          refine RStable.mk _ hcg ?_
          intro hvd
          exfalso
          rcases hvd with hvd | hvd
          · exact hv hvd
          · have hh : ¬ h = "Error" := by
              simpa [diggableB, bne_iff_ne] using hvd
            exact hv (by simp [isValidB, hh])
    | fnE hE ops canFlag =>
      cases canFlag with
      | true =>
        rw [show canonicalGet ce (.fnE hE ops true) = .fnE hE ops true by
          simp [canonicalGet]]
        exact RStable_fnE_flagged (hflag rfl)
      | false =>
        by_cases hv : isValidB (.fnE hE ops false) = true
        · rw [show canonicalGet ce (.fnE hE ops false) =
              makeCanonicalFunction ce (Sum.inr hE) ops by
            simp [canonicalGet, hv]]
          exact makeCanonical_RStable ce hok (Sum.inr hE) ops
            (fun z hz => ih z hz)
        · have hv2 : isValidB (.fnE hE ops false) = false := by
            cases hvb : isValidB (.fnE hE ops false)
            · rfl
            · exact absurd hvb hv
          have hcg : canonicalGet ce (.fnE hE ops false) =
              .fnE hE ops false := by
            simp [canonicalGet, hv2]
          rw [hcg]
          refine RStable.mk _ hcg ?_
          intro hvd
          exfalso
          rcases hvd with hvd | hvd
          · exact hv hvd
          · simp [diggableB] at hvd

/-- Claim C2: canonicalization is idempotent.  Under the engine
invariants the source documents (`EngineOK`: custom `canonical` handlers
and signature validation return canonical, stable expressions, and
`Error` carries no associative definition) and for well-formed input
(`WfIn`: every subexpression whose `_canonical` cache points to itself
has stable operands — the invariant engine-built canonical expressions
satisfy), `e.canonical.canonical` equals `e.canonical` (reference
identity `_canonical === this` is modelled by the canonical flag and
value equality); in particular the `canonical` accessor on an
already-canonical expression (its cache points to itself) returns the
expression itself. -/
theorem claimC2_canonical_idempotent (ce : Engine) (e : BExpr)
    (hok : EngineOK ce) (hwf : WfIn ce e) :
    canonicalGet ce (canonicalGet ce e) = canonicalGet ce e ∧
    (isCanonicalB e = true → canonicalGet ce e = e) := by
  constructor
  · exact (canonicalGet_RStable ce hok e hwf).fix
  · intro hc
    cases e with
    | num v => simp [canonicalGet]
    | sym s => simp [canonicalGet]
    | str s => simp [canonicalGet]
    | fn h ops c d =>
      have hc2 : c = true := by simpa [isCanonicalB] using hc
      subst hc2
      simp [canonicalGet]
    | fnE hE ops c =>
      have hc2 : c = true := by simpa [isCanonicalB] using hc
      subst hc2
      simp [canonicalGet]

theorem claimC2_witness :
    EngineOK {} ∧ WfIn {} (BExpr.fn "F" [BExpr.sym "t"] false false) ∧
    canonicalGet {} (canonicalGet {} (BExpr.fn "F" [BExpr.sym "t"] false false)) =
      canonicalGet {} (BExpr.fn "F" [BExpr.sym "t"] false false) ∧
    (isCanonicalB (BExpr.fn "F" [BExpr.sym "t"] true true) = true →
      canonicalGet {} (BExpr.fn "F" [BExpr.sym "t"] true true) =
        BExpr.fn "F" [BExpr.sym "t"] true true) := by
  have hok : EngineOK ({} : Engine) :=
    ⟨fun h d f hld => Option.noConfusion hld,
     fun h ops out hvs => Option.noConfusion hvs,
     fun d hld => Option.noConfusion hld⟩
  have hsym : WfIn ({} : Engine) (BExpr.sym "t") :=
    WfIn.mk _ (fun z hz => absurd hz (List.not_mem_nil z))
      (fun _ z hz => absurd hz (List.not_mem_nil z))
  have hwf : WfIn ({} : Engine) (BExpr.fn "F" [BExpr.sym "t"] false false) :=
    WfIn.mk _
      (fun z hz => by rw [List.mem_singleton.mp hz]; exact hsym)
      (fun hc => Bool.noConfusion hc)
  have hwfc : WfIn ({} : Engine) (BExpr.fn "F" [BExpr.sym "t"] true true) :=
    WfIn.mk _
      (fun z hz => by rw [List.mem_singleton.mp hz]; exact hsym)
      (fun _ z hz => by
        rw [List.mem_singleton.mp hz]
        exact RStable_sym {} "t")
  exact ⟨hok, hwf,
    (claimC2_canonical_idempotent {} (BExpr.fn "F" [BExpr.sym "t"] false false)
      hok hwf).1,
    (claimC2_canonical_idempotent {} (BExpr.fn "F" [BExpr.sym "t"] true true)
      hok hwfc).2⟩

end CE